import Mathlib

/-!
Verification of the `IntensitySegments` store
(`src/intensity_segments/intensity_segments.py`).

The store keeps a piecewise-constant integer-valued function over ℤ as a
sorted list of breakpoints `(start, intensity)`.  The definitions below are a
shallow embedding of the Python methods, translated line by line:

* `_find_index`      — the binary-search loop (lines 42–53),
* `_ensure_point`    — breakpoint insertion (lines 55–66),
* `add` / `set`      — the range updates (lines 68–110), with their `while`
                       loops embedded as `addLoop` / `setLoop`,
* `_cleanup_local`   — the compaction pass (lines 112–143), with its three
                       `while` loops embedded as `cleanupMergeLoop`,
                       `stripLeading` and `stripTrailing`,
* `__str__`          — the canonical dump (lines 146–153).

Python list reads `xs[i]` are embedded as `List.getD i d0`; the reads are all
in bounds, which is certified separately by the `Option`-valued clones
(`addC`, `setC`, …) that return `none` on any out-of-range read.
-/

namespace IntensitySegments

/-- A stored breakpoint `[start, intensity]`. -/
abbrev Seg := Int × Int

/-- Default value for (always in-bounds) list reads. -/
def d0 : Seg := (0, 0)

/-- The `while lo < hi` loop of `_find_index` (source lines 46–52). -/
def findIndexGo (segs : List Seg) (point : Int) (lo hi : Nat) : Nat :=
  if h : lo < hi then
    let mid := (lo + hi) / 2
    if (segs.getD mid d0).1 < point then
      findIndexGo segs point (mid + 1) hi
    else
      findIndexGo segs point lo mid
  else lo
termination_by hi - lo
decreasing_by
  · omega
  · omega

/-- `_find_index(point)`: first index whose segment start is `>= point`
(source lines 42–53). -/
def _find_index (segs : List Seg) (point : Int) : Nat :=
  findIndexGo segs point 0 segs.length

/-- `_ensure_point(point)` (source lines 55–66): insert a breakpoint at
`point` carrying the intensity currently in force there. -/
def _ensure_point (segs : List Seg) (point : Int) : List Seg :=
  let idx := _find_index segs point
  if idx < segs.length ∧ (segs.getD idx d0).1 = point then
    segs
  else
    let value : Int := if idx = 0 then 0 else (segs.getD (idx - 1) d0).2
    segs.take idx ++ (point, value) :: segs.drop idx

/-- The `while` loop of `add` (source lines 84–86): bump the intensity of
every breakpoint from index `idx` on whose start is `< to_`. -/
def addLoop (segs : List Seg) (to_ amount : Int) (idx : Nat) : List Seg :=
  if h : idx < segs.length ∧ (segs.getD idx d0).1 < to_ then
    addLoop (segs.set idx ((segs.getD idx d0).1, (segs.getD idx d0).2 + amount))
      to_ amount (idx + 1)
  else segs
termination_by segs.length - idx
decreasing_by simp only [List.length_set]; omega

/-- The `while` loop of `set` (source lines 106–108). -/
def setLoop (segs : List Seg) (to_ amount : Int) (idx : Nat) : List Seg :=
  if h : idx < segs.length ∧ (segs.getD idx d0).1 < to_ then
    setLoop (segs.set idx ((segs.getD idx d0).1, amount)) to_ amount (idx + 1)
  else segs
termination_by segs.length - idx
decreasing_by simp only [List.length_set]; omega

/-- The merge loop of `_cleanup_local` (source lines 125–131): walk indices
`i` in `[start_idx+1, end_idx)`, dropping a segment whenever the last kept
segment has the same intensity. -/
def cleanupMergeLoop (segs : List Seg) (endIdx : Nat) (cleaned : List Seg)
    (i : Nat) : List Seg :=
  if h : i < endIdx then
    if cleaned ≠ [] ∧ (cleaned.getLastD d0).2 = (segs.getD i d0).2 then
      cleanupMergeLoop segs endIdx cleaned (i + 1)
    else
      cleanupMergeLoop segs endIdx (cleaned ++ [segs.getD i d0]) (i + 1)
  else cleaned
termination_by endIdx - i

/-- The leading-zero loop of `_cleanup_local` (source lines 136–137):
`while len(cleaned) > 1 and cleaned[0][1] == 0: cleaned.pop(0)`. -/
def stripLeading : List Seg → List Seg
  | x :: y :: rest => if x.2 = 0 then stripLeading (y :: rest) else x :: y :: rest
  | l => l

/-- The trailing-zero loop of `_cleanup_local` (source lines 140–141):
`while len(cleaned) > 1 and cleaned[-1][1] == 0 and cleaned[-2][1] == 0`. -/
def stripTrailing (l : List Seg) : List Seg :=
  if h : 1 < l.length ∧ (l.getLastD d0).2 = 0 ∧ (l.dropLast.getLastD d0).2 = 0 then
    stripTrailing l.dropLast
  else l
termination_by l.length
decreasing_by simp only [List.length_dropLast]; omega

/-- `_cleanup_local(from_, to_)` (source lines 112–143).  `start_idx` is
`max(_find_index(from_) - 1, 0)`; truncated `Nat` subtraction realises the
`max` with `0`. -/
def _cleanup_local (segs : List Seg) (from_ to_ : Int) : List Seg :=
  if segs = [] then segs
  else
    let start_idx := _find_index segs from_ - 1
    let end_idx := min (_find_index segs to_) segs.length
    let cleaned := segs.take (start_idx + 1)
    let cleaned := cleanupMergeLoop segs end_idx cleaned (start_idx + 1)
    let cleaned := cleaned ++ segs.drop end_idx
    let cleaned := stripLeading cleaned
    stripTrailing cleaned

/-- `add(from_, to_, amount)` (source lines 68–88). -/
def add (segs : List Seg) (from_ to_ amount : Int) : List Seg :=
  if from_ ≥ to_ then segs
  else
    let segs := _ensure_point segs from_
    let segs := _ensure_point segs to_
    let idx := _find_index segs from_
    let segs := addLoop segs to_ amount idx
    _cleanup_local segs from_ to_

/-- `set(from_, to_, amount)` (source lines 90–110). -/
def set (segs : List Seg) (from_ to_ amount : Int) : List Seg :=
  if from_ ≥ to_ then segs
  else
    let segs := _ensure_point segs from_
    let segs := _ensure_point segs to_
    let idx := _find_index segs from_
    let segs := setLoop segs to_ amount idx
    _cleanup_local segs from_ to_

/-- `__str__` (source lines 146–153): Python's `str` of a list of two-element
lists, e.g. `"[[10, 1], [30, 0]]"`, and `"[]"` when empty. -/
def __str__ (segs : List Seg) : String :=
  "[" ++ String.intercalate ", "
    (segs.map (fun e => "[" ++ toString e.1 ++ ", " ++ toString e.2 ++ "]")) ++ "]"

/-- A public operation on the store. -/
inductive Op where
  | add (from_ to_ amount : Int)
  | set (from_ to_ amount : Int)

/-- Run one public operation. -/
def applyOp (segs : List Seg) : Op → List Seg
  | Op.add f t a => add segs f t a
  | Op.set f t a => set segs f t a

/-- Run a call sequence against a fresh (empty) store. -/
def runOps (ops : List Op) : List Seg := ops.foldl applyOp []

/-- A store state is reachable when some call sequence on a fresh store
produces it. -/
def Reachable (segs : List Seg) : Prop := ∃ ops : List Op, runOps ops = segs

/-- The function value implied by the store at point `p`: the intensity of
the last stored breakpoint whose start is `≤ p`, or `0` if there is none. -/
def valAt (segs : List Seg) (p : Int) : Int :=
  ((segs.filter (fun e => e.1 ≤ p)).getLastD d0).2

/-- The list of breakpoint starts. -/
def starts (segs : List Seg) : List Int := segs.map Prod.fst

/-- Breakpoints strictly ascending by start (hence no duplicate starts). -/
@[reducible] def SortedStarts (segs : List Seg) : Prop :=
  segs.Pairwise (fun a b => a.1 < b.1)

/-- The last stored breakpoint (if any) has intensity `0`; trivially holds
for the empty store since the default pair has intensity `0`. -/
@[reducible] def LastZero (segs : List Seg) : Prop := (segs.getLastD d0).2 = 0

/-- Reference semantics of one operation at a point, from the claim wording:
an `add` whose range `[from_, to_)` contains `p` bumps the value by `amount`,
a `set` whose range contains `p` overrides the value with `amount`, and
operations whose range misses `p` leave it alone. -/
def specStep (v : Int) (p : Int) : Op → Int
  | Op.add f t a => if f ≤ p ∧ p < t then v + a else v
  | Op.set f t a => if f ≤ p ∧ p < t then a else v

/-- Reference value at `p` after a call sequence: fold `specStep` from `0`.
This realises "the sum of all `add` amounts whose range contains `p`,
overridden by the most recent containing `set`, plus the amounts of the
`add`s issued after that `set`". -/
def specVal (ops : List Op) (p : Int) : Int :=
  ops.foldl (fun v op => specStep v p op) 0

/-- No two consecutive stored breakpoints have the same intensity. -/
@[reducible] def NoAdjacentEqualIntensity (segs : List Seg) : Prop :=
  segs.Chain' (fun a b => a.2 ≠ b.2)

/-- The canonical-dump format as the spec words it: a textual sequence of
two-element `[start, intensity]` sequences, `"[]"` for the empty store. -/
def specRender (segs : List Seg) : String :=
  match segs with
  | [] => "[]"
  | _ :: _ =>
    "[" ++ String.intercalate ", "
      (segs.map (fun e => "[" ++ toString e.1 ++ ", " ++ toString e.2 ++ "]")) ++ "]"

/-- Structural twin of `addLoop`, acting on the part of the list from the
loop's starting index on. -/
def addSeq (l : List Seg) (to_ amount : Int) : List Seg :=
  match l with
  | [] => []
  | e :: rest =>
    if e.1 < to_ then (e.1, e.2 + amount) :: addSeq rest to_ amount else e :: rest

/-- Structural twin of `setLoop`. -/
def setSeq (l : List Seg) (to_ amount : Int) : List Seg :=
  match l with
  | [] => []
  | e :: rest =>
    if e.1 < to_ then (e.1, amount) :: setSeq rest to_ amount else e :: rest

/-- Structural twin of `cleanupMergeLoop`, acting on the window slice. -/
def mergeSeq (cleaned : List Seg) : List Seg → List Seg
  | [] => cleaned
  | e :: rest =>
    if cleaned ≠ [] ∧ (cleaned.getLastD d0).2 = e.2 then mergeSeq cleaned rest
    else mergeSeq (cleaned ++ [e]) rest

/-!
### Bounds-checked clones

Each Python list read `xs[i]` is replayed through `xs[i]?`; the clone
returns `none` as soon as a read is out of range, and is otherwise the
original function.  Reads that the source itself guards with an explicit
length test in a short-circuit condition (`idx < len(...) and xs[idx]...`,
and the guarded `cleaned[0]`, `cleaned[-1]`, `cleaned[-2]` reads of the two
strip loops) are kept as in the plain embedding.
-/

/-- Checked clone of `findIndexGo`: the read `segs[mid]` is unguarded in the
source. -/
def findIndexGoC (segs : List Seg) (point : Int) (lo hi : Nat) : Option Nat :=
  if h : lo < hi then
    let mid := (lo + hi) / 2
    match segs[mid]? with
    | none => none
    | some e =>
      if e.1 < point then findIndexGoC segs point (mid + 1) hi
      else findIndexGoC segs point lo mid
  else some lo
termination_by hi - lo
decreasing_by
  · omega
  · omega

/-- Checked clone of `_ensure_point`: the read `segs[idx - 1]` is unguarded
in the source. -/
def _ensure_pointC (segs : List Seg) (point : Int) : Option (List Seg) :=
  match findIndexGoC segs point 0 segs.length with
  | none => none
  | some idx =>
    if idx < segs.length ∧ (segs.getD idx d0).1 = point then
      some segs
    else
      if idx = 0 then some (segs.take idx ++ (point, 0) :: segs.drop idx)
      else
        match segs[idx - 1]? with
        | none => none
        | some e => some (segs.take idx ++ (point, e.2) :: segs.drop idx)

/-- Checked clone of the `add` loop (its reads are guarded by the loop
condition itself, which is replayed unchanged). -/
def addLoopC (segs : List Seg) (to_ amount : Int) (idx : Nat) : Option (List Seg) :=
  if h : idx < segs.length ∧ (segs.getD idx d0).1 < to_ then
    addLoopC (segs.set idx ((segs.getD idx d0).1, (segs.getD idx d0).2 + amount))
      to_ amount (idx + 1)
  else some segs
termination_by segs.length - idx
decreasing_by simp only [List.length_set]; omega

/-- Checked clone of the `set` loop. -/
def setLoopC (segs : List Seg) (to_ amount : Int) (idx : Nat) : Option (List Seg) :=
  if h : idx < segs.length ∧ (segs.getD idx d0).1 < to_ then
    setLoopC (segs.set idx ((segs.getD idx d0).1, amount)) to_ amount (idx + 1)
  else some segs
termination_by segs.length - idx
decreasing_by simp only [List.length_set]; omega

/-- Checked clone of the merge loop: the read `segs[i]` is unguarded in the
source. -/
def cleanupMergeLoopC (segs : List Seg) (endIdx : Nat) (cleaned : List Seg)
    (i : Nat) : Option (List Seg) :=
  if h : i < endIdx then
    match segs[i]? with
    | none => none
    | some e =>
      if cleaned ≠ [] ∧ (cleaned.getLastD d0).2 = e.2 then
        cleanupMergeLoopC segs endIdx cleaned (i + 1)
      else
        cleanupMergeLoopC segs endIdx (cleaned ++ [e]) (i + 1)
  else some cleaned
termination_by endIdx - i

/-- Checked clone of `_cleanup_local`. -/
def _cleanup_localC (segs : List Seg) (from_ to_ : Int) : Option (List Seg) :=
  if segs = [] then some segs
  else
    match findIndexGoC segs from_ 0 segs.length with
    | none => none
    | some fi =>
      match findIndexGoC segs to_ 0 segs.length with
      | none => none
      | some ti =>
        let start_idx := fi - 1
        let end_idx := min ti segs.length
        match cleanupMergeLoopC segs end_idx (segs.take (start_idx + 1)) (start_idx + 1) with
        | none => none
        | some cleaned =>
          some (stripTrailing (stripLeading (cleaned ++ segs.drop end_idx)))

/-- Checked clone of `add`. -/
def addC (segs : List Seg) (from_ to_ amount : Int) : Option (List Seg) :=
  if from_ ≥ to_ then some segs
  else
    match _ensure_pointC segs from_ with
    | none => none
    | some s1 =>
      match _ensure_pointC s1 to_ with
      | none => none
      | some s2 =>
        match findIndexGoC s2 from_ 0 s2.length with
        | none => none
        | some idx =>
          match addLoopC s2 to_ amount idx with
          | none => none
          | some s3 => _cleanup_localC s3 from_ to_

/-- Checked clone of `set`. -/
def setC (segs : List Seg) (from_ to_ amount : Int) : Option (List Seg) :=
  if from_ ≥ to_ then some segs
  else
    match _ensure_pointC segs from_ with
    | none => none
    | some s1 =>
      match _ensure_pointC s1 to_ with
      | none => none
      | some s2 =>
        match findIndexGoC s2 from_ 0 s2.length with
        | none => none
        | some idx =>
          match setLoopC s2 to_ amount idx with
          | none => none
          | some s3 => _cleanup_localC s3 from_ to_

/-! ### Basic list lemmas -/

lemma getLastD_append_right (x : List Seg) {y : List Seg} (d : Seg) (hy : y ≠ []) :
    (x ++ y).getLastD d = y.getLastD d := by
  rcases y with _ | ⟨a, ys⟩
  · exact absurd rfl hy
  · rw [List.getLastD_eq_getLast?, List.getLastD_eq_getLast?, List.getLast?_append,
      List.getLast?_cons, Option.or_some]

lemma getLastD_congr {l : List Seg} (d d' : Seg) (h : l ≠ []) :
    l.getLastD d = l.getLastD d' := by
  rcases l with _ | ⟨a, ls⟩
  · exact absurd rfl h
  · rw [List.getLastD_eq_getLast?, List.getLastD_eq_getLast?, List.getLast?_cons]
    simp

lemma getLastD_eq_getLast {l : List Seg} (d : Seg) (h : l ≠ []) :
    l.getLastD d = l.getLast h := by
  rw [List.getLastD_eq_getLast?, List.getLast?_eq_getLast _ h, Option.getD_some]

/-! ### `valAt` basics -/

lemma valAt_nil (q : Int) : valAt [] q = 0 := rfl

lemma valAt_append (X Y : List Seg) (q : Int) :
    valAt (X ++ Y) q
      = if Y.filter (fun e => e.1 ≤ q) = [] then valAt X q else valAt Y q := by
  unfold valAt
  rw [List.filter_append]
  split
  · next h => rw [h, List.append_nil]
  · next h => rw [getLastD_append_right _ _ h]

lemma valAt_cons_zero (x : Seg) (Y : List Seg) (q : Int) (hx : x.2 = 0) :
    valAt (x :: Y) q = valAt Y q := by
  unfold valAt
  rw [List.filter_cons]
  split
  · rcases hY : Y.filter (fun e => e.1 ≤ q) with _ | ⟨a, ls⟩
    · simp [hY, List.getLastD, hx, d0]
    · rw [List.getLastD_cons, hY, getLastD_congr _ d0 (by simp)]
  · rfl

/-- Deleting an element whose (immediately preceding) surviving neighbour
carries the same intensity does not change any implied value, in a
start-sorted list. -/
lemma valAt_delete (X : List Seg) (e : Seg) (Y : List Seg) (q : Int)
    (hs : SortedStarts (X ++ e :: Y)) (hX : X ≠ [])
    (hlast : (X.getLastD d0).2 = e.2) :
    valAt (X ++ e :: Y) q = valAt (X ++ Y) q := by
  unfold SortedStarts at hs
  rw [List.pairwise_append] at hs
  obtain ⟨hsX, hsEY, hcross⟩ := hs
  have hXe : ∀ a ∈ X, a.1 < e.1 := fun a ha => hcross a ha e (by simp)
  have heY : ∀ y ∈ Y, e.1 < y.1 := (List.pairwise_cons.mp hsEY).1
  rw [valAt_append, valAt_append]
  rcases le_or_lt e.1 q with hq | hq
  · -- e passes the filter
    have hfe : (e :: Y).filter (fun a => a.1 ≤ q) = e :: Y.filter (fun a => a.1 ≤ q) := by
      rw [List.filter_cons, if_pos (by simpa using hq)]
    rw [hfe]
    rcases hfY : Y.filter (fun a => a.1 ≤ q) with _ | ⟨a, ls⟩
    · -- no element of Y survives: value comes from e on the left,
      -- from the last element of X on the right
      rw [if_neg (by simp), if_pos hfY]
      have hfX : X.filter (fun a => a.1 ≤ q) = X :=
        List.filter_eq_self.mpr (fun a ha => by
          simpa using le_of_lt (lt_of_lt_of_le (hXe a ha) hq))
      unfold valAt
      rw [hfe, hfY, hfX]
      simpa using hlast.symm
    · rw [if_neg (by simp), if_neg (by simp [hfY])]
      unfold valAt
      rw [hfe, hfY, List.getLastD_cons, getLastD_congr _ d0 (by simp)]
  · -- e (and everything after it) fails the filter
    have hfe : (e :: Y).filter (fun a => a.1 ≤ q) = [] := by
      rw [List.filter_cons, if_neg (by simpa using not_le.mpr hq)]
      exact List.filter_eq_nil_iff.mpr (fun a ha => by
        simpa using not_le.mpr (lt_trans hq (heY a ha)))
    have hfY : Y.filter (fun a => a.1 ≤ q) = [] :=
      List.filter_eq_nil_iff.mpr (fun a ha => by
        simpa using not_le.mpr (lt_trans hq (heY a ha)))
    rw [if_pos hfe, if_pos hfY]

/-! ### `_find_index` -/

/-- Equation lemma for `findIndexGo` with the `let` and the dependent `if`
removed. -/
lemma findIndexGo_eq (segs : List Seg) (p : Int) (lo hi : Nat) :
    findIndexGo segs p lo hi =
      if lo < hi then
        if (segs.getD ((lo + hi) / 2) d0).1 < p then
          findIndexGo segs p ((lo + hi) / 2 + 1) hi
        else findIndexGo segs p lo ((lo + hi) / 2)
      else lo := by
  rw [findIndexGo]
  split <;> rfl

lemma findIndexGo_bounds (segs : List Seg) (p : Int) :
    ∀ n lo hi, hi - lo = n → lo ≤ hi →
      lo ≤ findIndexGo segs p lo hi ∧ findIndexGo segs p lo hi ≤ hi := by
  intro n
  induction n using Nat.strong_induction_on with
  | _ n ih =>
    intro lo hi hn hlohi
    rw [findIndexGo_eq]
    by_cases h : lo < hi
    · rw [if_pos h]
      by_cases hc : (segs.getD ((lo + hi) / 2) d0).1 < p
      · rw [if_pos hc]
        have := ih (hi - ((lo + hi) / 2 + 1)) (by omega) ((lo + hi) / 2 + 1) hi rfl
          (by omega)
        omega
      · rw [if_neg hc]
        have := ih ((lo + hi) / 2 - lo) (by omega) lo ((lo + hi) / 2) rfl (by omega)
        omega
    · rw [if_neg h]
      omega

lemma find_index_le (segs : List Seg) (p : Int) :
    _find_index segs p ≤ segs.length :=
  (findIndexGo_bounds segs p _ 0 segs.length rfl (Nat.zero_le _)).2

lemma getD_mono {segs : List Seg} (hs : SortedStarts segs) {i j : Nat}
    (hij : i < j) (hj : j < segs.length) :
    (segs.getD i d0).1 < (segs.getD j d0).1 := by
  rw [List.getD_eq_getElem _ _ (lt_trans hij hj), List.getD_eq_getElem _ _ hj]
  exact List.pairwise_iff_getElem.mp hs i j (lt_trans hij hj) hj hij

/-- The binary search classifies every index of a sorted list: the result
`r` has every start before it `< p` and every start from it on `≥ p`. -/
lemma findIndexGo_spec (segs : List Seg) (p : Int) (hs : SortedStarts segs) :
    ∀ n lo hi, hi - lo = n → lo ≤ hi → hi ≤ segs.length →
      (∀ i, i < lo → (segs.getD i d0).1 < p) →
      (∀ i, hi ≤ i → i < segs.length → p ≤ (segs.getD i d0).1) →
      (∀ i, i < findIndexGo segs p lo hi → (segs.getD i d0).1 < p) ∧
      (∀ i, findIndexGo segs p lo hi ≤ i → i < segs.length →
        p ≤ (segs.getD i d0).1) := by
  intro n
  induction n using Nat.strong_induction_on with
  | _ n ih =>
    intro lo hi hn hlohi hhilen hlow hhigh
    rw [findIndexGo_eq]
    by_cases h : lo < hi
    · rw [if_pos h]
      by_cases hc : (segs.getD ((lo + hi) / 2) d0).1 < p
      · rw [if_pos hc]
        refine ih (hi - ((lo + hi) / 2 + 1)) (by omega) ((lo + hi) / 2 + 1) hi rfl
          (by omega) hhilen (fun i hi' => ?_) hhigh
        rcases lt_or_ge i lo with h' | h'
        · exact hlow i h'
        · rcases eq_or_lt_of_le (show i ≤ (lo + hi) / 2 by omega) with he | hlt'
          · rw [he]; exact hc
          · exact lt_trans (getD_mono hs hlt' (by omega)) hc
      · rw [if_neg hc]
        refine ih ((lo + hi) / 2 - lo) (by omega) lo ((lo + hi) / 2) rfl (by omega)
          (by omega) hlow (fun i hi' hilen => ?_)
        rcases eq_or_lt_of_le hi' with he | hlt'
        · rw [← he]; exact not_lt.mp hc
        · exact le_of_lt (lt_of_le_of_lt (not_lt.mp hc) (getD_mono hs hlt' hilen))
    · rw [if_neg h]
      exact ⟨fun i hi' => hlow i (by omega), fun i hi' hilen => hhigh i (by omega) hilen⟩

lemma find_index_spec (segs : List Seg) (p : Int) (hs : SortedStarts segs) :
    (∀ i, i < _find_index segs p → (segs.getD i d0).1 < p) ∧
    (∀ i, _find_index segs p ≤ i → i < segs.length → p ≤ (segs.getD i d0).1) :=
  findIndexGo_spec segs p hs _ 0 segs.length rfl (Nat.zero_le _) le_rfl
    (fun i h => absurd h (Nat.not_lt_zero i)) (fun _ h h' => absurd h' (by omega))

lemma mem_starts {segs : List Seg} {p : Int} :
    p ∈ starts segs ↔ ∃ k, k < segs.length ∧ (segs.getD k d0).1 = p := by
  unfold starts
  rw [List.mem_iff_getElem]
  constructor
  · rintro ⟨n, hn, he⟩
    rw [List.length_map] at hn
    refine ⟨n, hn, ?_⟩
    rw [List.getD_eq_getElem _ _ hn]
    rw [List.getElem_map] at he
    exact he
  · rintro ⟨k, hk, he⟩
    refine ⟨k, by simpa [List.length_map] using hk, ?_⟩
    rw [List.getElem_map]
    rw [List.getD_eq_getElem _ _ hk] at he
    exact he

/-- In a sorted list, `_find_index` finds the position of a present start. -/
lemma find_index_of_getD {segs : List Seg} {p : Int} (hs : SortedStarts segs)
    {k : Nat} (hk : k < segs.length) (hp : (segs.getD k d0).1 = p) :
    _find_index segs p = k := by
  obtain ⟨hlow, hhigh⟩ := find_index_spec segs p hs
  rcases lt_trichotomy (_find_index segs p) k with h | h | h
  · have h1 : p ≤ (segs.getD (_find_index segs p) d0).1 := hhigh _ le_rfl (lt_trans h hk)
    have h2 : (segs.getD (_find_index segs p) d0).1 < (segs.getD k d0).1 :=
      getD_mono hs h hk
    rw [hp] at h2
    exact absurd (lt_of_le_of_lt h1 h2) (lt_irrefl p)
  · exact h
  · have := hlow k h
    rw [hp] at this
    exact absurd this (lt_irrefl p)

lemma find_index_of_mem {segs : List Seg} {p : Int} (hs : SortedStarts segs)
    (hp : p ∈ starts segs) :
    _find_index segs p < segs.length ∧
      (segs.getD (_find_index segs p) d0).1 = p := by
  obtain ⟨k, hk, he⟩ := mem_starts.mp hp
  rw [find_index_of_getD hs hk he]
  exact ⟨hk, he⟩

/-! ### `_ensure_point` -/

/-- Equation lemma for `_ensure_point` with the `let`s expanded. -/
lemma ensure_point_eq (segs : List Seg) (p : Int) :
    _ensure_point segs p =
      if _find_index segs p < segs.length ∧
          (segs.getD (_find_index segs p) d0).1 = p then
        segs
      else
        segs.take (_find_index segs p) ++
          (p, if _find_index segs p = 0 then 0
              else (segs.getD (_find_index segs p - 1) d0).2) ::
            segs.drop (_find_index segs p) := rfl

lemma mem_take_getD {segs : List Seg} {k : Nat} {a : Seg} (ha : a ∈ segs.take k) :
    ∃ j, j < k ∧ j < segs.length ∧ segs.getD j d0 = a := by
  obtain ⟨j, hj, he⟩ := List.mem_iff_getElem.mp ha
  rw [List.length_take] at hj
  have hj1 : j < k := lt_of_lt_of_le hj (min_le_left _ _)
  have hj2 : j < segs.length := lt_of_lt_of_le hj (min_le_right _ _)
  refine ⟨j, hj1, hj2, ?_⟩
  rw [List.getD_eq_getElem _ _ hj2, ← List.getElem_take segs]
  exact he

lemma mem_drop_getD {segs : List Seg} {k : Nat} {b : Seg} (hb : b ∈ segs.drop k) :
    ∃ j, k ≤ j ∧ j < segs.length ∧ segs.getD j d0 = b := by
  obtain ⟨j, hj, he⟩ := List.mem_iff_getElem.mp hb
  rw [List.length_drop] at hj
  refine ⟨k + j, Nat.le_add_right _ _, by omega, ?_⟩
  rw [List.getD_eq_getElem _ _ (by omega), ← List.getElem_drop segs]
  exact he

lemma getLastD_eq_getD {l : List Seg} (d : Seg) (h : l ≠ []) :
    l.getLastD d = l.getD (l.length - 1) d := by
  rw [getLastD_eq_getLast d h, List.getLast_eq_getElem,
    List.getD_eq_getElem _ _ (by
      cases l with
      | nil => exact absurd rfl h
      | cons x xs => simp)]

lemma suffix_getLastD {x y : List Seg} (h : y <:+ x) (hy : y ≠ []) :
    x.getLastD d0 = y.getLastD d0 := by
  obtain ⟨w, rfl⟩ := h
  exact getLastD_append_right w d0 hy

lemma ensure_point_sorted {segs : List Seg} (hs : SortedStarts segs) (p : Int) :
    SortedStarts (_ensure_point segs p) := by
  rw [ensure_point_eq]
  split
  · exact hs
  · next hcond =>
    obtain ⟨hlow, hhigh⟩ := find_index_spec segs p hs
    have hgt : ∀ i, _find_index segs p ≤ i → i < segs.length →
        p < (segs.getD i d0).1 := by
      intro i hki hilen
      rcases eq_or_lt_of_le hki with he | hlt
      · refine lt_of_le_of_ne (hhigh i hki hilen) (fun hcontra => hcond ?_)
        subst he
        exact ⟨hilen, hcontra.symm⟩
      · exact lt_of_le_of_lt (hhigh _ le_rfl (lt_of_lt_of_le hlt (by omega)))
          (getD_mono hs hlt hilen)
    unfold SortedStarts
    rw [List.pairwise_append]
    refine ⟨hs.sublist (List.take_sublist _ _), ?_, ?_⟩
    · rw [List.pairwise_cons]
      refine ⟨?_, hs.sublist (List.drop_sublist _ _)⟩
      intro b hb
      obtain ⟨j, hj1, hj2, he⟩ := mem_drop_getD hb
      rw [← he]
      exact hgt j hj1 hj2
    · intro a ha b hb
      obtain ⟨i, hi1, hi2, hea⟩ := mem_take_getD ha
      have ha' : a.1 < p := by rw [← hea]; exact hlow i hi1
      rcases List.mem_cons.mp hb with rfl | hb'
      · exact ha'
      · obtain ⟨j, hj1, hj2, heb⟩ := mem_drop_getD hb'
        rw [← heb]
        exact lt_trans ha' (hgt j hj1 hj2)

lemma ensure_point_valAt {segs : List Seg} (hs : SortedStarts segs) (p q : Int) :
    valAt (_ensure_point segs p) q = valAt segs q := by
  rw [ensure_point_eq]
  split
  · rfl
  · next hcond =>
    obtain ⟨hlow, hhigh⟩ := find_index_spec segs p hs
    conv_rhs => rw [← List.take_append_drop (_find_index segs p) segs]
    rw [valAt_append, valAt_append]
    rcases le_or_lt p q with hq | hq
    · -- the inserted point passes the filter
      have hfe : ((p, if _find_index segs p = 0 then 0
            else (segs.getD (_find_index segs p - 1) d0).2) ::
            segs.drop (_find_index segs p)).filter (fun e => e.1 ≤ q)
          = (p, if _find_index segs p = 0 then 0
            else (segs.getD (_find_index segs p - 1) d0).2) ::
            (segs.drop (_find_index segs p)).filter (fun e => e.1 ≤ q) := by
        rw [List.filter_cons, if_pos (by simpa using hq)]
      rw [hfe]
      rcases hfd : (segs.drop (_find_index segs p)).filter (fun e => e.1 ≤ q)
        with _ | ⟨a, ls⟩
      · -- nothing after the insertion point survives
        rw [if_neg (by simp), if_pos hfd]
        unfold valAt
        rw [hfe, hfd]
        by_cases hk0 : _find_index segs p = 0
        · rw [hk0]
          simp [List.getLastD, d0]
        · rw [if_neg hk0]
          have hkle := find_index_le segs p
          have hfX : (segs.take (_find_index segs p)).filter (fun e => e.1 ≤ q) =
              segs.take (_find_index segs p) := by
            refine List.filter_eq_self.mpr (fun a ha => ?_)
            obtain ⟨j, hj1, hj2, he⟩ := mem_take_getD ha
            rw [← he]
            simpa using le_trans (le_of_lt (hlow j hj1)) hq
          rw [hfX]
          have htne : segs.take (_find_index segs p) ≠ [] := by
            have : (segs.take (_find_index segs p)).length = _find_index segs p := by
              rw [List.length_take]; omega
            intro hc
            rw [hc] at this
            simp at this
            exact hk0 this.symm
          have hlen : (segs.take (_find_index segs p)).length = _find_index segs p := by
            rw [List.length_take]; omega
          have hlt : _find_index segs p - 1 < segs.length := by omega
          have hlt' : _find_index segs p - 1 <
              (segs.take (_find_index segs p)).length := by
            rw [hlen]; omega
          rw [getLastD_eq_getD d0 htne, hlen,
            List.getD_eq_getElem _ _ hlt, List.getD_eq_getElem _ _ hlt',
            List.getElem_take segs]
          simp
      · have hne : (segs.drop (_find_index segs p)).filter (fun e => e.1 ≤ q) ≠ [] := by
          rw [hfd]
          simp
        rw [if_neg (by simp), if_neg hne]
        unfold valAt
        rw [hfe, hfd, List.getLastD_cons, getLastD_congr _ d0 (by simp)]
    · -- q < p : the inserted point and everything after it fail the filter
      have hfail : ∀ b ∈ segs.drop (_find_index segs p), ¬ b.1 ≤ q := by
        intro b hb
        obtain ⟨j, hj1, hj2, he⟩ := mem_drop_getD hb
        rw [← he]
        exact not_le.mpr (lt_of_lt_of_le hq (hhigh j hj1 hj2))
      have hfe : ((p, if _find_index segs p = 0 then 0
            else (segs.getD (_find_index segs p - 1) d0).2) ::
            segs.drop (_find_index segs p)).filter (fun e => e.1 ≤ q) = [] := by
        rw [List.filter_cons, if_neg (by simpa using not_le.mpr hq)]
        exact List.filter_eq_nil_iff.mpr (fun a ha => by simpa using hfail a ha)
      have hfd : (segs.drop (_find_index segs p)).filter (fun e => e.1 ≤ q) = [] :=
        List.filter_eq_nil_iff.mpr (fun a ha => by simpa using hfail a ha)
      rw [if_pos hfe, if_pos hfd]

lemma ensure_point_mem {segs : List Seg} (p : Int) :
    p ∈ starts (_ensure_point segs p) := by
  rw [ensure_point_eq]
  split
  · next hcond => exact mem_starts.mpr ⟨_, hcond.1, hcond.2⟩
  · unfold starts
    simp

lemma ensure_point_starts_subset {segs : List Seg} (p x : Int)
    (hx : x ∈ starts segs) : x ∈ starts (_ensure_point segs p) := by
  rw [ensure_point_eq]
  split
  · exact hx
  · unfold starts at hx ⊢
    rw [← List.take_append_drop (_find_index segs p) segs, List.map_append]
      at hx
    rw [List.map_append]
    rcases List.mem_append.mp hx with h | h
    · exact List.mem_append.mpr (Or.inl h)
    · refine List.mem_append.mpr (Or.inr ?_)
      simp only [List.map_cons]
      exact List.mem_cons_of_mem _ h

lemma ensure_point_lastZero {segs : List Seg} (p : Int) (hl : LastZero segs) :
    LastZero (_ensure_point segs p) := by
  rw [ensure_point_eq]
  split
  · exact hl
  · unfold LastZero
    by_cases hd : segs.drop (_find_index segs p) = []
    · rw [hd]
      rw [getLastD_append_right _ _ (by simp)]
      simp only [List.getLastD]
      split
      · rfl
      · next hk0 =>
        -- the whole list was consumed: `k = length`, the read hits the last
        have hkle := find_index_le segs p
        have hklen : _find_index segs p = segs.length := by
          have := List.drop_eq_nil_iff.mp hd
          omega
        have hne : segs ≠ [] := by
          intro hc
          subst hc
          simp at hklen
          exact hk0 hklen
        unfold LastZero at hl
        rw [getLastD_eq_getD d0 hne, ← hklen] at hl
        simpa using hl
    · rw [getLastD_append_right _ _ (by simp), List.getLastD_cons,
        getLastD_congr _ d0 hd]
      unfold LastZero at hl
      rw [suffix_getLastD (List.drop_suffix _ _) hd] at hl
      exact hl

lemma ensure_point_ne_nil {segs : List Seg} (p : Int) :
    _ensure_point segs p ≠ [] := by
  rw [ensure_point_eq]
  split
  · next hcond =>
    intro hc
    rw [hc] at hcond
    simp at hcond
  · simp

/-! ### The update loops -/

lemma getLast?_append_right (A : List Seg) {B : List Seg} (h : B ≠ []) :
    (A ++ B).getLast? = B.getLast? := by
  rw [List.getLast?_append]
  cases hB : B.getLast? with
  | none => exact absurd (List.getLast?_eq_none_iff.mp hB) h
  | some b => rw [Option.or_some]

/-- The `add` loop is: keep the first `idx` entries, then run the
structural `addSeq` on the rest. -/
lemma addLoop_eq (segs : List Seg) (to_ amount : Int) (idx : Nat) :
    addLoop segs to_ amount idx = segs.take idx ++ addSeq (segs.drop idx) to_ amount := by
  induction segs, to_, amount, idx using addLoop.induct with
  | case1 segs to_ amount idx h ih =>
    rw [addLoop, dif_pos h]
    rw [ih]
    have hlen : idx < segs.length := h.1
    rw [List.drop_set, if_pos (by omega)]
    have hset : segs.set idx ((segs.getD idx d0).1, (segs.getD idx d0).2 + amount)
        = segs.take idx ++ ((segs.getD idx d0).1, (segs.getD idx d0).2 + amount)
          :: segs.drop (idx + 1) := by
      rw [List.set_eq_take_append_cons_drop, if_pos hlen]
    rw [hset]
    have htk : (segs.take idx ++ ((segs.getD idx d0).1, (segs.getD idx d0).2 + amount)
          :: segs.drop (idx + 1)).take (idx + 1)
        = segs.take idx ++ [((segs.getD idx d0).1, (segs.getD idx d0).2 + amount)] := by
      have hl : (segs.take idx).length = idx := by rw [List.length_take]; omega
      rw [show idx + 1 = (segs.take idx).length + 1 by rw [hl], List.take_append]
      simp
    rw [htk]
    have hdr : segs.drop idx
        = segs.getD idx d0 :: segs.drop (idx + 1) := by
      rw [List.getD_eq_getElem _ _ hlen]
      exact List.drop_eq_getElem_cons hlen
    rw [hdr]
    rw [show addSeq (segs.getD idx d0 :: segs.drop (idx + 1)) to_ amount
        = ((segs.getD idx d0).1, (segs.getD idx d0).2 + amount)
          :: addSeq (segs.drop (idx + 1)) to_ amount by
      rw [addSeq, if_pos h.2]]
    simp
  | case2 segs to_ amount idx h =>
    rw [addLoop, dif_neg h]
    rcases not_and_or.mp h with h' | h'
    · have hlen : segs.length ≤ idx := by omega
      rw [List.drop_eq_nil_of_le hlen, List.take_of_length_le hlen]
      simp [addSeq]
    · have hlen : idx < segs.length ∨ segs.length ≤ idx := by omega
      rcases hlen with hlt | hle
      · have hdr : segs.drop idx = segs.getD idx d0 :: segs.drop (idx + 1) := by
          rw [List.getD_eq_getElem _ _ hlt]
          exact List.drop_eq_getElem_cons hlt
        rw [hdr, addSeq, if_neg h', ← hdr, List.take_append_drop]
      · rw [List.drop_eq_nil_of_le hle, List.take_of_length_le hle]
        simp [addSeq]

/-- Same bridge for the `set` loop. -/
lemma setLoop_eq (segs : List Seg) (to_ amount : Int) (idx : Nat) :
    setLoop segs to_ amount idx = segs.take idx ++ setSeq (segs.drop idx) to_ amount := by
  induction segs, to_, amount, idx using setLoop.induct with
  | case1 segs to_ amount idx h ih =>
    rw [setLoop, dif_pos h]
    rw [ih]
    have hlen : idx < segs.length := h.1
    rw [List.drop_set, if_pos (by omega)]
    have hset : segs.set idx ((segs.getD idx d0).1, amount)
        = segs.take idx ++ ((segs.getD idx d0).1, amount) :: segs.drop (idx + 1) := by
      rw [List.set_eq_take_append_cons_drop, if_pos hlen]
    rw [hset]
    have htk : (segs.take idx ++ ((segs.getD idx d0).1, amount)
          :: segs.drop (idx + 1)).take (idx + 1)
        = segs.take idx ++ [((segs.getD idx d0).1, amount)] := by
      have hl : (segs.take idx).length = idx := by rw [List.length_take]; omega
      rw [show idx + 1 = (segs.take idx).length + 1 by rw [hl], List.take_append]
      simp
    rw [htk]
    have hdr : segs.drop idx = segs.getD idx d0 :: segs.drop (idx + 1) := by
      rw [List.getD_eq_getElem _ _ hlen]
      exact List.drop_eq_getElem_cons hlen
    rw [hdr]
    rw [show setSeq (segs.getD idx d0 :: segs.drop (idx + 1)) to_ amount
        = ((segs.getD idx d0).1, amount) :: setSeq (segs.drop (idx + 1)) to_ amount by
      rw [setSeq, if_pos h.2]]
    simp
  | case2 segs to_ amount idx h =>
    rw [setLoop, dif_neg h]
    rcases not_and_or.mp h with h' | h'
    · have hlen : segs.length ≤ idx := by omega
      rw [List.drop_eq_nil_of_le hlen, List.take_of_length_le hlen]
      simp [setSeq]
    · have hlen : idx < segs.length ∨ segs.length ≤ idx := by omega
      rcases hlen with hlt | hle
      · have hdr : segs.drop idx = segs.getD idx d0 :: segs.drop (idx + 1) := by
          rw [List.getD_eq_getElem _ _ hlt]
          exact List.drop_eq_getElem_cons hlt
        rw [hdr, setSeq, if_neg h', ← hdr, List.take_append_drop]
      · rw [List.drop_eq_nil_of_le hle, List.take_of_length_le hle]
        simp [setSeq]

/-- `addSeq` rewrites the longest prefix of starts `< to_` and keeps the
rest. -/
lemma addSeq_eq (l : List Seg) (to_ amount : Int) :
    addSeq l to_ amount
      = (l.takeWhile (fun e => e.1 < to_)).map (fun e => (e.1, e.2 + amount))
        ++ l.dropWhile (fun e => e.1 < to_) := by
  induction l with
  | nil => rfl
  | cons e rest ih =>
    rw [addSeq, List.takeWhile_cons, List.dropWhile_cons]
    by_cases hc : e.1 < to_
    · rw [if_pos hc, if_pos (by simpa using hc), if_pos (by simpa using hc), ih]
      simp
    · rw [if_neg hc, if_neg (by simpa using hc), if_neg (by simpa using hc)]
      simp

lemma setSeq_eq (l : List Seg) (to_ amount : Int) :
    setSeq l to_ amount
      = (l.takeWhile (fun e => e.1 < to_)).map (fun e => (e.1, amount))
        ++ l.dropWhile (fun e => e.1 < to_) := by
  induction l with
  | nil => rfl
  | cons e rest ih =>
    rw [setSeq, List.takeWhile_cons, List.dropWhile_cons]
    by_cases hc : e.1 < to_
    · rw [if_pos hc, if_pos (by simpa using hc), if_pos (by simpa using hc), ih]
      simp
    · rw [if_neg hc, if_neg (by simpa using hc), if_neg (by simpa using hc)]
      simp

lemma addSeq_starts (l : List Seg) (to_ amount : Int) :
    starts (addSeq l to_ amount) = starts l := by
  induction l with
  | nil => rfl
  | cons e rest ih =>
    rw [addSeq]
    by_cases hc : e.1 < to_
    · rw [if_pos hc]
      unfold starts at ih ⊢
      simpa using ih
    · rw [if_neg hc]

lemma setSeq_starts (l : List Seg) (to_ amount : Int) :
    starts (setSeq l to_ amount) = starts l := by
  induction l with
  | nil => rfl
  | cons e rest ih =>
    rw [setSeq]
    by_cases hc : e.1 < to_
    · rw [if_pos hc]
      unfold starts at ih ⊢
      simpa using ih
    · rw [if_neg hc]

lemma sorted_of_starts_eq {l1 l2 : List Seg} (h : starts l1 = starts l2)
    (hs : SortedStarts l2) : SortedStarts l1 := by
  unfold SortedStarts at *
  have h1 : (starts l1).Pairwise (fun a b => a < b) := by
    rw [h]
    exact (List.pairwise_map).mpr hs
  exact (List.pairwise_map).mp h1

lemma addLoop_starts (segs : List Seg) (to_ amount : Int) (idx : Nat) :
    starts (addLoop segs to_ amount idx) = starts segs := by
  rw [addLoop_eq]
  unfold starts
  rw [List.map_append]
  rw [show (addSeq (segs.drop idx) to_ amount).map Prod.fst
      = (segs.drop idx).map Prod.fst from addSeq_starts _ _ _]
  rw [← List.map_append, List.take_append_drop]

lemma setLoop_starts (segs : List Seg) (to_ amount : Int) (idx : Nat) :
    starts (setLoop segs to_ amount idx) = starts segs := by
  rw [setLoop_eq]
  unfold starts
  rw [List.map_append]
  rw [show (setSeq (segs.drop idx) to_ amount).map Prod.fst
      = (segs.drop idx).map Prod.fst from setSeq_starts _ _ _]
  rw [← List.map_append, List.take_append_drop]

lemma getLastD_map_pres (g : Seg → Seg) {l : List Seg} (h : l ≠ []) :
    (l.map g).getLastD d0 = g (l.getLastD d0) := by
  rcases l with _ | ⟨x, xs⟩
  · exact absurd rfl h
  · rw [List.getLastD_eq_getLast?, List.getLastD_eq_getLast?, List.getLast?_map,
      List.getLast?_cons]
    simp

lemma valAt_map_add (M : List Seg) (a q : Int)
    (hne : M.filter (fun e => e.1 ≤ q) ≠ []) :
    valAt (M.map (fun e => (e.1, e.2 + a))) q = valAt M q + a := by
  unfold valAt
  rw [List.filter_map,
    show ((fun e : Seg => decide (e.1 ≤ q)) ∘ (fun e : Seg => (e.1, e.2 + a)))
      = (fun e : Seg => decide (e.1 ≤ q)) from rfl,
    getLastD_map_pres _ hne]

lemma valAt_map_const (M : List Seg) (c q : Int)
    (hne : M.filter (fun e => e.1 ≤ q) ≠ []) :
    valAt (M.map (fun e => (e.1, c))) q = c := by
  unfold valAt
  rw [List.filter_map,
    show ((fun e : Seg => decide (e.1 ≤ q)) ∘ (fun e : Seg => (e.1, c)))
      = (fun e : Seg => decide (e.1 ≤ q)) from rfl,
    getLastD_map_pres _ hne]

/-- Pointwise effect of the `add` loop, run from the index of the (present)
start `f`, on a sorted store that also contains a breakpoint at `to_ = t`:
it bumps exactly the values in `[f, t)`. -/
lemma addLoop_valAt {s2 : List Seg} (hs : SortedStarts s2) {f t : Int}
    (hf : f ∈ starts s2) (ht : t ∈ starts s2) (hft : f < t) (a q : Int) :
    valAt (addLoop s2 t a (_find_index s2 f)) q
      = if f ≤ q ∧ q < t then valAt s2 q + a else valAt s2 q := by
  obtain ⟨hkf, hgetf⟩ := find_index_of_mem hs hf
  obtain ⟨hlow, hhigh⟩ := find_index_spec s2 f hs
  rw [addLoop_eq, addSeq_eq]
  have hA : ∀ e ∈ s2.take (_find_index s2 f), e.1 < f := by
    intro e he
    obtain ⟨j, hj1, hj2, he'⟩ := mem_take_getD he
    rw [← he']
    exact hlow j hj1
  have hDmem : ∀ e ∈ s2.drop (_find_index s2 f), f ≤ e.1 := by
    intro e he
    obtain ⟨j, hj1, hj2, he'⟩ := mem_drop_getD he
    rw [← he']
    exact hhigh j hj1 hj2
  have hM : ∀ e ∈ (s2.drop (_find_index s2 f)).takeWhile (fun e => e.1 < t),
      f ≤ e.1 ∧ e.1 < t := by
    intro e he
    exact ⟨hDmem e ((List.takeWhile_sublist _).subset he),
      by simpa using List.mem_takeWhile_imp he⟩
  have hB : ∀ e ∈ (s2.drop (_find_index s2 f)).dropWhile (fun e => e.1 < t),
      t ≤ e.1 := by
    have hsubB : SortedStarts
        ((s2.drop (_find_index s2 f)).dropWhile (fun e => e.1 < t)) :=
      List.Pairwise.sublist
        ((List.dropWhile_sublist _).trans (List.drop_sublist _ _)) hs
    have hhead := List.head?_dropWhile_not (fun e : Seg => decide (e.1 < t))
      (s2.drop (_find_index s2 f))
    rcases hDW : (s2.drop (_find_index s2 f)).dropWhile (fun e => e.1 < t)
      with _ | ⟨b, bs⟩
    · intro e he
      rw [hDW] at he
      simp at he
    · rw [hDW] at hhead hsubB
      simp only [List.head?_cons] at hhead
      have hbt : t ≤ b.1 := by simpa using hhead
      intro e he
      rw [hDW] at he
      rcases List.mem_cons.mp he with rfl | he'
      · exact hbt
      · exact le_of_lt (lt_of_le_of_lt hbt
          ((List.pairwise_cons.mp hsubB).1 e he'))
  have hefM : s2.getD (_find_index s2 f) d0
      ∈ (s2.drop (_find_index s2 f)).takeWhile (fun e => e.1 < t) := by
    have hdr : s2.drop (_find_index s2 f)
        = s2.getD (_find_index s2 f) d0 :: s2.drop (_find_index s2 f + 1) := by
      rw [List.getD_eq_getElem _ _ hkf]
      exact List.drop_eq_getElem_cons hkf
    rw [hdr, List.takeWhile_cons,
      if_pos (by simp only [decide_eq_true_eq]; rw [hgetf]; omega)]
    exact List.mem_cons_self _ _
  obtain ⟨et, het, hett⟩ : ∃ et ∈ s2, et.1 = t := by
    unfold starts at ht
    simpa [List.mem_map] using ht
  have hsplit : s2 = s2.take (_find_index s2 f)
      ++ ((s2.drop (_find_index s2 f)).takeWhile (fun e => e.1 < t)
        ++ (s2.drop (_find_index s2 f)).dropWhile (fun e => e.1 < t)) := by
    rw [List.takeWhile_append_dropWhile, List.take_append_drop]
  have hetB : et ∈ (s2.drop (_find_index s2 f)).dropWhile (fun e => e.1 < t) := by
    rw [hsplit] at het
    rcases List.mem_append.mp het with h1 | h1
    · exfalso
      have := hA _ h1
      rw [hett] at this
      omega
    · rcases List.mem_append.mp h1 with h2 | h2
      · exfalso
        have := (hM _ h2).2
        rw [hett] at this
        omega
      · exact h2
  conv_rhs => rw [hsplit]
  rcases lt_or_le q f with hqf | hqf
  · -- q below the range: only the prefix matters on both sides
    have hfM : ((s2.drop (_find_index s2 f)).takeWhile
        (fun e => e.1 < t)).filter (fun e => e.1 ≤ q) = [] :=
      List.filter_eq_nil_iff.mpr (fun e he => by
        have := (hM e he).1
        simp
        omega)
    have hfM' : (((s2.drop (_find_index s2 f)).takeWhile
        (fun e => e.1 < t)).map (fun e => (e.1, e.2 + a))).filter
          (fun e => e.1 ≤ q) = [] := by
      refine List.filter_eq_nil_iff.mpr (fun x hx => ?_)
      obtain ⟨e, he, rfl⟩ := List.mem_map.mp hx
      have := (hM e he).1
      simp
      omega
    have hfB : ((s2.drop (_find_index s2 f)).dropWhile
        (fun e => e.1 < t)).filter (fun e => e.1 ≤ q) = [] :=
      List.filter_eq_nil_iff.mpr (fun e he => by
        have := hB e he
        simp
        omega)
    rw [valAt_append, if_pos (by rw [List.filter_append, hfM', hfB]; rfl),
      if_neg (by omega), valAt_append,
      if_pos (by rw [List.filter_append, hfM, hfB]; rfl)]
  · rcases lt_or_le q t with hqt | hqt
    · -- q inside [f, t)
      have hmemf : s2.getD (_find_index s2 f) d0
          ∈ ((s2.drop (_find_index s2 f)).takeWhile
            (fun e => e.1 < t)).filter (fun e => e.1 ≤ q) :=
        List.mem_filter.mpr ⟨hefM, by simp only [decide_eq_true_eq]; rw [hgetf]; omega⟩
      have hneM : ((s2.drop (_find_index s2 f)).takeWhile
          (fun e => e.1 < t)).filter (fun e => e.1 ≤ q) ≠ [] :=
        List.ne_nil_of_mem hmemf
      have hneM' : (((s2.drop (_find_index s2 f)).takeWhile
          (fun e => e.1 < t)).map (fun e => (e.1, e.2 + a))).filter
            (fun e => e.1 ≤ q) ≠ [] := by
        refine List.ne_nil_of_mem (l := _)
          (List.mem_filter.mpr ⟨List.mem_map_of_mem _ hefM,
            by simp only [decide_eq_true_eq]; rw [show ((s2.getD (_find_index s2 f) d0).1,
                (s2.getD (_find_index s2 f) d0).2 + a).1
              = (s2.getD (_find_index s2 f) d0).1 from rfl, hgetf]; omega⟩)
      have hfB : ((s2.drop (_find_index s2 f)).dropWhile
          (fun e => e.1 < t)).filter (fun e => e.1 ≤ q) = [] :=
        List.filter_eq_nil_iff.mpr (fun e he => by
          have := hB e he
          simp
          omega)
      rw [valAt_append,
        if_neg (by rw [List.filter_append, hfB, List.append_nil]; exact hneM'),
        valAt_append, if_pos hfB, if_pos (by omega), valAt_append,
        if_neg (by rw [List.filter_append, hfB, List.append_nil]; exact hneM),
        valAt_append, if_pos hfB]
      exact valAt_map_add _ a q hneM
    · -- q at or above t: only the suffix matters on both sides
      have hneB : ((s2.drop (_find_index s2 f)).dropWhile
          (fun e => e.1 < t)).filter (fun e => e.1 ≤ q) ≠ [] :=
        List.ne_nil_of_mem (List.mem_filter.mpr
          ⟨hetB, by simp only [decide_eq_true_eq]; rw [hett]; omega⟩)
      rw [valAt_append,
        if_neg (by rw [List.filter_append]; simp [hneB]),
        valAt_append, if_neg hneB, if_neg (by omega), valAt_append,
        if_neg (by rw [List.filter_append]; simp [hneB]),
        valAt_append, if_neg hneB]

/-- Pointwise effect of the `set` loop: it overwrites exactly the values in
`[f, t)` with `amount`. -/
lemma setLoop_valAt {s2 : List Seg} (hs : SortedStarts s2) {f t : Int}
    (hf : f ∈ starts s2) (ht : t ∈ starts s2) (hft : f < t) (a q : Int) :
    valAt (setLoop s2 t a (_find_index s2 f)) q
      = if f ≤ q ∧ q < t then a else valAt s2 q := by
  obtain ⟨hkf, hgetf⟩ := find_index_of_mem hs hf
  obtain ⟨hlow, hhigh⟩ := find_index_spec s2 f hs
  rw [setLoop_eq, setSeq_eq]
  have hA : ∀ e ∈ s2.take (_find_index s2 f), e.1 < f := by
    intro e he
    obtain ⟨j, hj1, hj2, he'⟩ := mem_take_getD he
    rw [← he']
    exact hlow j hj1
  have hDmem : ∀ e ∈ s2.drop (_find_index s2 f), f ≤ e.1 := by
    intro e he
    obtain ⟨j, hj1, hj2, he'⟩ := mem_drop_getD he
    rw [← he']
    exact hhigh j hj1 hj2
  have hM : ∀ e ∈ (s2.drop (_find_index s2 f)).takeWhile (fun e => e.1 < t),
      f ≤ e.1 ∧ e.1 < t := by
    intro e he
    exact ⟨hDmem e ((List.takeWhile_sublist _).subset he),
      by simpa using List.mem_takeWhile_imp he⟩
  have hB : ∀ e ∈ (s2.drop (_find_index s2 f)).dropWhile (fun e => e.1 < t),
      t ≤ e.1 := by
    have hsubB : SortedStarts
        ((s2.drop (_find_index s2 f)).dropWhile (fun e => e.1 < t)) :=
      List.Pairwise.sublist
        ((List.dropWhile_sublist _).trans (List.drop_sublist _ _)) hs
    have hhead := List.head?_dropWhile_not (fun e : Seg => decide (e.1 < t))
      (s2.drop (_find_index s2 f))
    rcases hDW : (s2.drop (_find_index s2 f)).dropWhile (fun e => e.1 < t)
      with _ | ⟨b, bs⟩
    · intro e he
      rw [hDW] at he
      simp at he
    · rw [hDW] at hhead hsubB
      simp only [List.head?_cons] at hhead
      have hbt : t ≤ b.1 := by simpa using hhead
      intro e he
      rw [hDW] at he
      rcases List.mem_cons.mp he with rfl | he'
      · exact hbt
      · exact le_of_lt (lt_of_le_of_lt hbt
          ((List.pairwise_cons.mp hsubB).1 e he'))
  have hefM : s2.getD (_find_index s2 f) d0
      ∈ (s2.drop (_find_index s2 f)).takeWhile (fun e => e.1 < t) := by
    have hdr : s2.drop (_find_index s2 f)
        = s2.getD (_find_index s2 f) d0 :: s2.drop (_find_index s2 f + 1) := by
      rw [List.getD_eq_getElem _ _ hkf]
      exact List.drop_eq_getElem_cons hkf
    rw [hdr, List.takeWhile_cons,
      if_pos (by simp only [decide_eq_true_eq]; rw [hgetf]; omega)]
    exact List.mem_cons_self _ _
  obtain ⟨et, het, hett⟩ : ∃ et ∈ s2, et.1 = t := by
    unfold starts at ht
    simpa [List.mem_map] using ht
  have hsplit : s2 = s2.take (_find_index s2 f)
      ++ ((s2.drop (_find_index s2 f)).takeWhile (fun e => e.1 < t)
        ++ (s2.drop (_find_index s2 f)).dropWhile (fun e => e.1 < t)) := by
    rw [List.takeWhile_append_dropWhile, List.take_append_drop]
  have hetB : et ∈ (s2.drop (_find_index s2 f)).dropWhile (fun e => e.1 < t) := by
    rw [hsplit] at het
    rcases List.mem_append.mp het with h1 | h1
    · exfalso
      have := hA _ h1
      rw [hett] at this
      omega
    · rcases List.mem_append.mp h1 with h2 | h2
      · exfalso
        have := (hM _ h2).2
        rw [hett] at this
        omega
      · exact h2
  conv_rhs => rw [hsplit]
  rcases lt_or_le q f with hqf | hqf
  · have hfM : ((s2.drop (_find_index s2 f)).takeWhile
        (fun e => e.1 < t)).filter (fun e => e.1 ≤ q) = [] :=
      List.filter_eq_nil_iff.mpr (fun e he => by
        have := (hM e he).1
        simp
        omega)
    have hfM' : (((s2.drop (_find_index s2 f)).takeWhile
        (fun e => e.1 < t)).map (fun e => (e.1, a))).filter
          (fun e => e.1 ≤ q) = [] := by
      refine List.filter_eq_nil_iff.mpr (fun x hx => ?_)
      obtain ⟨e, he, rfl⟩ := List.mem_map.mp hx
      have := (hM e he).1
      simp
      omega
    have hfB : ((s2.drop (_find_index s2 f)).dropWhile
        (fun e => e.1 < t)).filter (fun e => e.1 ≤ q) = [] :=
      List.filter_eq_nil_iff.mpr (fun e he => by
        have := hB e he
        simp
        omega)
    rw [valAt_append, if_pos (by rw [List.filter_append, hfM', hfB]; rfl),
      if_neg (by omega), valAt_append,
      if_pos (by rw [List.filter_append, hfM, hfB]; rfl)]
  · rcases lt_or_le q t with hqt | hqt
    · have hmemf : s2.getD (_find_index s2 f) d0
          ∈ ((s2.drop (_find_index s2 f)).takeWhile
            (fun e => e.1 < t)).filter (fun e => e.1 ≤ q) :=
        List.mem_filter.mpr ⟨hefM, by simp only [decide_eq_true_eq]; rw [hgetf]; omega⟩
      have hneM : ((s2.drop (_find_index s2 f)).takeWhile
          (fun e => e.1 < t)).filter (fun e => e.1 ≤ q) ≠ [] :=
        List.ne_nil_of_mem hmemf
      have hneM' : (((s2.drop (_find_index s2 f)).takeWhile
          (fun e => e.1 < t)).map (fun e => (e.1, a))).filter
            (fun e => e.1 ≤ q) ≠ [] := by
        refine List.ne_nil_of_mem (l := _)
          (List.mem_filter.mpr ⟨List.mem_map_of_mem _ hefM,
            by simp only [decide_eq_true_eq]; rw [show ((s2.getD (_find_index s2 f) d0).1,
                a).1
              = (s2.getD (_find_index s2 f) d0).1 from rfl, hgetf]; omega⟩)
      have hfB : ((s2.drop (_find_index s2 f)).dropWhile
          (fun e => e.1 < t)).filter (fun e => e.1 ≤ q) = [] :=
        List.filter_eq_nil_iff.mpr (fun e he => by
          have := hB e he
          simp
          omega)
      rw [valAt_append,
        if_neg (by rw [List.filter_append, hfB, List.append_nil]; exact hneM'),
        valAt_append, if_pos hfB, if_pos (by omega)]
      exact valAt_map_const _ a q hneM
    · have hneB : ((s2.drop (_find_index s2 f)).dropWhile
          (fun e => e.1 < t)).filter (fun e => e.1 ≤ q) ≠ [] :=
        List.ne_nil_of_mem (List.mem_filter.mpr
          ⟨hetB, by simp only [decide_eq_true_eq]; rw [hett]; omega⟩)
      rw [valAt_append,
        if_neg (by rw [List.filter_append]; simp [hneB]),
        valAt_append, if_neg hneB, if_neg (by omega), valAt_append,
        if_neg (by rw [List.filter_append]; simp [hneB]),
        valAt_append, if_neg hneB]

lemma starts_ne_nil_of_mem {segs : List Seg} {x : Int} (hx : x ∈ starts segs) :
    segs ≠ [] := by
  intro hc
  subst hc
  simp [starts] at hx

lemma le_getLastD_of_mem_starts {segs : List Seg} (hs : SortedStarts segs)
    {x : Int} (hx : x ∈ starts segs) : x ≤ (segs.getLastD d0).1 := by
  have hne : segs ≠ [] := starts_ne_nil_of_mem hx
  obtain ⟨k, hk, he⟩ := mem_starts.mp hx
  rw [getLastD_eq_getD d0 hne]
  rcases eq_or_lt_of_le (show k ≤ segs.length - 1 by omega) with heq | hlt
  · rw [← heq, he]
  · rw [← he]
    exact le_of_lt (getD_mono hs hlt (by omega))

lemma addSeq_ne_nil {l : List Seg} (to_ amount : Int) (hne : l ≠ []) :
    addSeq l to_ amount ≠ [] := by
  cases l with
  | nil => exact absurd rfl hne
  | cons e rest =>
    rw [addSeq]
    split <;> simp

lemma setSeq_ne_nil {l : List Seg} (to_ amount : Int) (hne : l ≠ []) :
    setSeq l to_ amount ≠ [] := by
  cases l with
  | nil => exact absurd rfl hne
  | cons e rest =>
    rw [setSeq]
    split <;> simp

/-- If the last start is at or past `to_`, the `add` loop body never touches
the last entry. -/
lemma addSeq_getLastD {l : List Seg} (to_ amount : Int) (hne : l ≠ [])
    (hlast : to_ ≤ (l.getLastD d0).1) :
    (addSeq l to_ amount).getLastD d0 = l.getLastD d0 := by
  rw [addSeq_eq]
  have hB : l.dropWhile (fun e => e.1 < to_) ≠ [] := by
    intro hc
    have hall := List.dropWhile_eq_nil_iff.mp hc
    have hmem : l.getLastD d0 ∈ l := by
      rw [getLastD_eq_getLast d0 hne]
      exact List.getLast_mem hne
    have := hall _ hmem
    simp only [decide_eq_true_eq] at this
    omega
  rw [getLastD_append_right _ _ hB]
  conv_rhs => rw [← List.takeWhile_append_dropWhile (p := fun e => decide (e.1 < to_)) (l := l)]
  rw [getLastD_append_right _ _ hB]

lemma setSeq_getLastD {l : List Seg} (to_ amount : Int) (hne : l ≠ [])
    (hlast : to_ ≤ (l.getLastD d0).1) :
    (setSeq l to_ amount).getLastD d0 = l.getLastD d0 := by
  rw [setSeq_eq]
  have hB : l.dropWhile (fun e => e.1 < to_) ≠ [] := by
    intro hc
    have hall := List.dropWhile_eq_nil_iff.mp hc
    have hmem : l.getLastD d0 ∈ l := by
      rw [getLastD_eq_getLast d0 hne]
      exact List.getLast_mem hne
    have := hall _ hmem
    simp only [decide_eq_true_eq] at this
    omega
  rw [getLastD_append_right _ _ hB]
  conv_rhs => rw [← List.takeWhile_append_dropWhile (p := fun e => decide (e.1 < to_)) (l := l)]
  rw [getLastD_append_right _ _ hB]

lemma addLoop_lastZero {segs : List Seg} (hs : SortedStarts segs) {to_ : Int}
    (ht : to_ ∈ starts segs) (amount : Int) (idx : Nat) (hl : LastZero segs) :
    LastZero (addLoop segs to_ amount idx) := by
  rw [addLoop_eq]
  by_cases hd : segs.drop idx = []
  · have hlen : segs.length ≤ idx := List.drop_eq_nil_iff.mp hd
    rw [hd, List.take_of_length_le hlen,
      show addSeq ([] : List Seg) to_ amount = [] from rfl, List.append_nil]
    exact hl
  · have hlaste : segs.getLastD d0 = (segs.drop idx).getLastD d0 :=
      suffix_getLastD (List.drop_suffix _ _) hd
    have hlast : to_ ≤ ((segs.drop idx).getLastD d0).1 := by
      rw [← hlaste]
      exact le_getLastD_of_mem_starts hs ht
    unfold LastZero
    rw [getLastD_append_right _ _ (addSeq_ne_nil to_ amount hd),
      addSeq_getLastD to_ amount hd hlast, ← hlaste]
    exact hl

lemma setLoop_lastZero {segs : List Seg} (hs : SortedStarts segs) {to_ : Int}
    (ht : to_ ∈ starts segs) (amount : Int) (idx : Nat) (hl : LastZero segs) :
    LastZero (setLoop segs to_ amount idx) := by
  rw [setLoop_eq]
  by_cases hd : segs.drop idx = []
  · have hlen : segs.length ≤ idx := List.drop_eq_nil_iff.mp hd
    rw [hd, List.take_of_length_le hlen,
      show setSeq ([] : List Seg) to_ amount = [] from rfl, List.append_nil]
    exact hl
  · have hlaste : segs.getLastD d0 = (segs.drop idx).getLastD d0 :=
      suffix_getLastD (List.drop_suffix _ _) hd
    have hlast : to_ ≤ ((segs.drop idx).getLastD d0).1 := by
      rw [← hlaste]
      exact le_getLastD_of_mem_starts hs ht
    unfold LastZero
    rw [getLastD_append_right _ _ (setSeq_ne_nil to_ amount hd),
      setSeq_getLastD to_ amount hd hlast, ← hlaste]
    exact hl

lemma addLoop_sorted {segs : List Seg} (hs : SortedStarts segs)
    (to_ amount : Int) (idx : Nat) : SortedStarts (addLoop segs to_ amount idx) :=
  sorted_of_starts_eq (addLoop_starts segs to_ amount idx) hs

lemma setLoop_sorted {segs : List Seg} (hs : SortedStarts segs)
    (to_ amount : Int) (idx : Nat) : SortedStarts (setLoop segs to_ amount idx) :=
  sorted_of_starts_eq (setLoop_starts segs to_ amount idx) hs

lemma addLoop_mem_starts {segs : List Seg} {x : Int} (hx : x ∈ starts segs)
    (to_ amount : Int) (idx : Nat) : x ∈ starts (addLoop segs to_ amount idx) := by
  rw [addLoop_starts]
  exact hx

lemma setLoop_mem_starts {segs : List Seg} {x : Int} (hx : x ∈ starts segs)
    (to_ amount : Int) (idx : Nat) : x ∈ starts (setLoop segs to_ amount idx) := by
  rw [setLoop_starts]
  exact hx

/-! ### `_cleanup_local` -/

/-- The merge loop is: run the structural `mergeSeq` on the window slice
`segs[i:end_idx]`. -/
lemma cleanupMergeLoop_eq :
    ∀ (segs : List Seg) (endIdx : Nat) (cleaned : List Seg) (i : Nat),
      endIdx ≤ segs.length →
      cleanupMergeLoop segs endIdx cleaned i
        = mergeSeq cleaned ((segs.take endIdx).drop i) := by
  intro segs endIdx cleaned i
  induction cleaned, i using cleanupMergeLoop.induct segs endIdx with
  | case1 cleaned i h hcond ih =>
    intro hle
    have hi : i < (segs.take endIdx).length := by
      rw [List.length_take]
      omega
    have hslice : (segs.take endIdx).drop i
        = segs.getD i d0 :: (segs.take endIdx).drop (i + 1) := by
      rw [List.drop_eq_getElem_cons hi, List.getElem_take segs,
        ← List.getD_eq_getElem segs d0 (by omega)]
    rw [cleanupMergeLoop, dif_pos h, if_pos hcond, ih hle, hslice, mergeSeq,
      if_pos hcond]
  | case2 cleaned i h hcond ih =>
    intro hle
    have hi : i < (segs.take endIdx).length := by
      rw [List.length_take]
      omega
    have hslice : (segs.take endIdx).drop i
        = segs.getD i d0 :: (segs.take endIdx).drop (i + 1) := by
      rw [List.drop_eq_getElem_cons hi, List.getElem_take segs,
        ← List.getD_eq_getElem segs d0 (by omega)]
    rw [cleanupMergeLoop, dif_pos h, if_neg hcond, ih hle, hslice, mergeSeq,
      if_neg hcond]
  | case3 cleaned i h =>
    intro hle
    rw [cleanupMergeLoop, dif_neg h,
      List.drop_eq_nil_of_le (by rw [List.length_take]; omega)]
    rfl

/-- `mergeSeq` keeps its accumulator as a prefix and appends a sub-selection
of the window. -/
lemma mergeSeq_append : ∀ (w c : List Seg), ∃ r, mergeSeq c w = c ++ r ∧ r.Sublist w := by
  intro w
  induction w with
  | nil =>
    intro c
    exact ⟨[], by rw [mergeSeq]; simp, List.Sublist.refl _⟩
  | cons e w' ih =>
    intro c
    rw [mergeSeq]
    split
    · obtain ⟨r, h1, h2⟩ := ih c
      exact ⟨r, h1, h2.cons e⟩
    · obtain ⟨r, h1, h2⟩ := ih (c ++ [e])
      refine ⟨e :: r, ?_, h2.cons₂ e⟩
      rw [h1]
      simp

/-- Deleting duplicates of the immediately preceding surviving intensity is
invisible to `valAt`, for start-sorted input. -/
lemma mergeSeq_valAt : ∀ (w c tail : List Seg) (q : Int),
    SortedStarts (c ++ w ++ tail) →
    valAt (mergeSeq c w ++ tail) q = valAt (c ++ (w ++ tail)) q := by
  intro w
  induction w with
  | nil =>
    intro c tail q hs
    rw [mergeSeq]
    simp
  | cons e w' ih =>
    intro c tail q hs
    have hs' : SortedStarts (c ++ (e :: (w' ++ tail))) := by
      have heq : c ++ (e :: w') ++ tail = c ++ (e :: (w' ++ tail)) := by simp
      rw [← heq]
      exact hs
    rw [mergeSeq]
    split
    · next hcond =>
      have hsub : (c ++ w' ++ tail).Sublist (c ++ (e :: w') ++ tail) := by
        simp
      rw [ih c tail q (List.Pairwise.sublist hsub hs)]
      exact (valAt_delete c e (w' ++ tail) q hs' hcond.1 hcond.2).symm
    · next hcond =>
      have heq2 : (c ++ [e]) ++ w' ++ tail = c ++ (e :: w') ++ tail := by simp
      rw [ih (c ++ [e]) tail q (by rw [heq2]; exact hs)]
      have heq3 : (c ++ [e]) ++ (w' ++ tail) = c ++ ((e :: w') ++ tail) := by simp
      rw [heq3]

/-! ### The strip loops -/

lemma stripLeading_valAt : ∀ (l : List Seg) (q : Int),
    valAt (stripLeading l) q = valAt l q := by
  intro l
  induction l with
  | nil => intro q; rfl
  | cons x rest ih =>
    intro q
    cases rest with
    | nil => rfl
    | cons y rest' =>
      rw [stripLeading]
      split
      · next hx =>
        rw [ih q]
        exact (valAt_cons_zero x _ q hx).symm
      · rfl

lemma stripLeading_suffix : ∀ l : List Seg, stripLeading l <:+ l := by
  intro l
  induction l with
  | nil => exact List.suffix_refl _
  | cons x rest ih =>
    cases rest with
    | nil => exact List.suffix_refl _
    | cons y rest' =>
      rw [stripLeading]
      split
      · exact ih.trans (List.suffix_cons x _)
      · exact List.suffix_refl _

lemma stripLeading_ne_nil : ∀ l : List Seg, l ≠ [] → stripLeading l ≠ [] := by
  intro l
  induction l with
  | nil => exact fun h => absurd rfl h
  | cons x rest ih =>
    intro _
    cases rest with
    | nil => simp [stripLeading]
    | cons y rest' =>
      rw [stripLeading]
      split
      · exact ih (by simp)
      · simp

lemma stripLeading_getLastD {l : List Seg} (h : l ≠ []) :
    (stripLeading l).getLastD d0 = l.getLastD d0 :=
  (suffix_getLastD (stripLeading_suffix l) (stripLeading_ne_nil l h)).symm

lemma stripTrailing_sublist : ∀ l : List Seg, (stripTrailing l).Sublist l := by
  intro l
  induction l using stripTrailing.induct with
  | case1 l h ih =>
    rw [stripTrailing, dif_pos h]
    exact ih.trans (List.dropLast_sublist l)
  | case2 l h =>
    rw [stripTrailing, dif_neg h]

lemma stripTrailing_valAt : ∀ (l : List Seg) (q : Int), SortedStarts l →
    valAt (stripTrailing l) q = valAt l q := by
  intro l
  induction l using stripTrailing.induct with
  | case1 l h ih =>
    intro q hs
    have hne : l ≠ [] := by
      intro hc
      subst hc
      simp at h
    have hdne : l.dropLast ≠ [] := by
      intro hc
      have := congrArg List.length hc
      simp only [List.length_dropLast, List.length_nil] at this
      omega
    rw [stripTrailing, dif_pos h,
      ih q (List.Pairwise.sublist (List.dropLast_sublist l) hs)]
    have h1 : (l.getLast hne).2 = 0 := by
      rw [← getLastD_eq_getLast d0 hne]
      exact h.2.1
    have hlast : (l.dropLast.getLastD d0).2 = (l.getLast hne).2 := by
      rw [h.2.2, h1]
    conv_rhs => rw [← List.dropLast_append_getLast hne]
    rw [show l.dropLast ++ [l.getLast hne] = l.dropLast ++ l.getLast hne :: []
        from rfl,
      valAt_delete l.dropLast (l.getLast hne) [] q
        (by rw [show l.dropLast ++ l.getLast hne :: [] = l from
          List.dropLast_append_getLast hne]; exact hs) hdne hlast,
      List.append_nil]
  | case2 l h =>
    intro q hs
    rw [stripTrailing, dif_neg h]

lemma stripTrailing_lastZero : ∀ l : List Seg, LastZero l →
    LastZero (stripTrailing l) := by
  intro l
  induction l using stripTrailing.induct with
  | case1 l h ih =>
    rw [stripTrailing, dif_pos h]
    exact fun _ => ih h.2.2
  | case2 l h =>
    intro hl
    rw [stripTrailing, dif_neg h]
    exact hl

/-- Equation lemma for `_cleanup_local` on a non-empty store, with the
`let`s expanded. -/
lemma cleanup_local_eq (segs : List Seg) (from_ to_ : Int) (hne : segs ≠ []) :
    _cleanup_local segs from_ to_ =
      stripTrailing (stripLeading
        (cleanupMergeLoop segs (min (_find_index segs to_) segs.length)
          (segs.take (_find_index segs from_ - 1 + 1))
          (_find_index segs from_ - 1 + 1)
        ++ segs.drop (min (_find_index segs to_) segs.length))) := by
  rw [_cleanup_local, if_neg hne]

/-- What the tail of the compaction pass (append the suffix, strip zeros)
does to a merged window, stated over an abstract decomposition. -/
lemma cleanup_post {P W C r s : List Seg} (hsplit : s = P ++ W ++ C)
    (hs : SortedStarts s) (hmr : mergeSeq P W = P ++ r) (hrsub : r.Sublist W)
    (hC : C ≠ []) :
    (∀ q, valAt (stripTrailing (stripLeading (mergeSeq P W ++ C))) q = valAt s q) ∧
    (stripTrailing (stripLeading (mergeSeq P W ++ C))).Sublist s ∧
    (LastZero s → LastZero (stripTrailing (stripLeading (mergeSeq P W ++ C)))) := by
  have hLsub : (mergeSeq P W ++ C).Sublist s := by
    rw [hmr, hsplit]
    exact ((List.Sublist.refl P).append hrsub).append (List.Sublist.refl C)
  have hLsorted : SortedStarts (mergeSeq P W ++ C) :=
    List.Pairwise.sublist hLsub hs
  have hLval : ∀ q, valAt (mergeSeq P W ++ C) q = valAt s q := by
    intro q
    have h1 := mergeSeq_valAt W P C q (hsplit ▸ hs)
    rw [h1, show P ++ (W ++ C) = P ++ W ++ C from (List.append_assoc P W C).symm,
      ← hsplit]
  have hLne : mergeSeq P W ++ C ≠ [] := by
    intro hcontra
    exact hC (List.append_eq_nil.mp hcontra).2
  have hLlast : (mergeSeq P W ++ C).getLastD d0 = s.getLastD d0 := by
    rw [getLastD_append_right _ _ hC]
    exact (suffix_getLastD (by rw [hsplit]; exact ⟨P ++ W, by simp⟩) hC).symm
  refine ⟨?_, ?_, ?_⟩
  · intro q
    rw [stripTrailing_valAt _ q
        (List.Pairwise.sublist ((stripLeading_suffix _).sublist) hLsorted),
      stripLeading_valAt, hLval]
  · exact (stripTrailing_sublist _).trans
      (((stripLeading_suffix _).sublist).trans hLsub)
  · intro hlz
    refine stripTrailing_lastZero _ ?_
    unfold LastZero
    rw [stripLeading_getLastD hLne, hLlast]
    exact hlz

/-- Effect of the compaction pass on a sorted store containing breakpoints
at both `f` and `t` with `f < t` — the situation in which `add`/`set` invoke
it: every implied value is preserved, the result is a sub-selection of the
store, and a zero-intensity last entry stays zero. -/
lemma cleanup_local_main {s : List Seg} {f t : Int} (hs : SortedStarts s)
    (hf : f ∈ starts s) (ht : t ∈ starts s) (hft : f < t) :
    (∀ q, valAt (_cleanup_local s f t) q = valAt s q) ∧
    (_cleanup_local s f t).Sublist s ∧
    (LastZero s → LastZero (_cleanup_local s f t)) := by
  have hne : s ≠ [] := starts_ne_nil_of_mem hf
  obtain ⟨hkf, hgf⟩ := find_index_of_mem hs hf
  obtain ⟨hkt, hgt⟩ := find_index_of_mem hs ht
  have hkfkt : _find_index s f < _find_index s t := by
    by_contra hcon
    push_neg at hcon
    rcases eq_or_lt_of_le hcon with he | hlt
    · rw [← he, hgt] at hgf
      omega
    · have := getD_mono hs hlt hkf
      rw [hgf, hgt] at this
      omega
  have hmin : min (_find_index s t) s.length = _find_index s t :=
    min_eq_left (le_of_lt hkt)
  have hsi1 : _find_index s f - 1 + 1 ≤ _find_index s t := by omega
  have hPW : s.take (_find_index s f - 1 + 1)
      = (s.take (_find_index s t)).take (_find_index s f - 1 + 1) := by
    rw [List.take_take, min_eq_left hsi1]
  have hsplit : s = s.take (_find_index s f - 1 + 1)
      ++ (s.take (_find_index s t)).drop (_find_index s f - 1 + 1)
      ++ s.drop (_find_index s t) := by
    conv_lhs => rw [← List.take_append_drop (_find_index s t) s,
      ← List.take_append_drop (_find_index s f - 1 + 1) (s.take (_find_index s t))]
    rw [hPW]
  have hC : s.drop (_find_index s t) ≠ [] := by
    intro hc
    have := List.drop_eq_nil_iff.mp hc
    omega
  obtain ⟨r, hmr, hrsub⟩ := mergeSeq_append
    ((s.take (_find_index s t)).drop (_find_index s f - 1 + 1))
    (s.take (_find_index s f - 1 + 1))
  have hbridge : cleanupMergeLoop s (min (_find_index s t) s.length)
      (s.take (_find_index s f - 1 + 1)) (_find_index s f - 1 + 1)
      = mergeSeq (s.take (_find_index s f - 1 + 1))
          ((s.take (_find_index s t)).drop (_find_index s f - 1 + 1)) := by
    rw [cleanupMergeLoop_eq s _ _ _ (min_le_right _ _), hmin]
  rw [cleanup_local_eq s f t hne, hbridge, hmin]
  exact cleanup_post hsplit hs hmr hrsub hC

/-! ### The public operations -/

/-- `add` on an empty or inverted range is the identity (source lines 77–78). -/
lemma add_nop {segs : List Seg} {from_ to_ : Int} (h : from_ ≥ to_) (amount : Int) :
    add segs from_ to_ amount = segs := by
  rw [add, if_pos h]

/-- `set` on an empty or inverted range is the identity (source lines 99–100). -/
lemma set_nop {segs : List Seg} {from_ to_ : Int} (h : from_ ≥ to_) (amount : Int) :
    set segs from_ to_ amount = segs := by
  rw [set, if_pos h]

/-- Equation lemma for the effective branch of `add`. -/
lemma add_eq {from_ to_ : Int} (segs : List Seg) (h : ¬ from_ ≥ to_) (amount : Int) :
    add segs from_ to_ amount =
      _cleanup_local
        (addLoop (_ensure_point (_ensure_point segs from_) to_) to_ amount
          (_find_index (_ensure_point (_ensure_point segs from_) to_) from_))
        from_ to_ := by
  rw [add, if_neg h]

/-- Equation lemma for the effective branch of `set`. -/
lemma set_eq {from_ to_ : Int} (segs : List Seg) (h : ¬ from_ ≥ to_) (amount : Int) :
    set segs from_ to_ amount =
      _cleanup_local
        (setLoop (_ensure_point (_ensure_point segs from_) to_) to_ amount
          (_find_index (_ensure_point (_ensure_point segs from_) to_) from_))
        from_ to_ := by
  rw [set, if_neg h]

/-- One `add`: invariants are preserved and the implied value changes by
`amount` exactly on `[from_, to_)`. -/
lemma add_main {segs : List Seg} (hs : SortedStarts segs) (hl : LastZero segs)
    (from_ to_ amount : Int) :
    SortedStarts (add segs from_ to_ amount) ∧
    LastZero (add segs from_ to_ amount) ∧
    (∀ q, valAt (add segs from_ to_ amount) q
      = if from_ ≤ q ∧ q < to_ then valAt segs q + amount else valAt segs q) := by
  by_cases h : from_ ≥ to_
  · rw [add_nop h]
    exact ⟨hs, hl, fun q => by rw [if_neg (by omega)]⟩
  · rw [add_eq segs h]
    have hs1 : SortedStarts (_ensure_point segs from_) := ensure_point_sorted hs from_
    have hs2 : SortedStarts (_ensure_point (_ensure_point segs from_) to_) :=
      ensure_point_sorted hs1 to_
    have hl1 : LastZero (_ensure_point segs from_) := ensure_point_lastZero from_ hl
    have hl2 : LastZero (_ensure_point (_ensure_point segs from_) to_) :=
      ensure_point_lastZero to_ hl1
    have hfmem : from_ ∈ starts (_ensure_point (_ensure_point segs from_) to_) :=
      ensure_point_starts_subset to_ from_ (ensure_point_mem from_)
    have htmem : to_ ∈ starts (_ensure_point (_ensure_point segs from_) to_) :=
      ensure_point_mem to_
    have hft : from_ < to_ := by omega
    have hs3 := addLoop_sorted hs2 to_ amount
      (_find_index (_ensure_point (_ensure_point segs from_) to_) from_)
    have hl3 := addLoop_lastZero hs2 htmem amount
      (_find_index (_ensure_point (_ensure_point segs from_) to_) from_) hl2
    have hfm3 := addLoop_mem_starts hfmem to_ amount
      (_find_index (_ensure_point (_ensure_point segs from_) to_) from_)
    have htm3 := addLoop_mem_starts htmem to_ amount
      (_find_index (_ensure_point (_ensure_point segs from_) to_) from_)
    obtain ⟨hcv, hcsub, hclz⟩ := cleanup_local_main hs3 hfm3 htm3 hft
    refine ⟨List.Pairwise.sublist hcsub hs3, hclz hl3, fun q => ?_⟩
    rw [hcv q, addLoop_valAt hs2 hfmem htmem hft amount q,
      ensure_point_valAt hs1 to_ q, ensure_point_valAt hs from_ q]

/-- One `set`: invariants are preserved and the implied value is overridden
with `amount` exactly on `[from_, to_)`. -/
lemma set_main {segs : List Seg} (hs : SortedStarts segs) (hl : LastZero segs)
    (from_ to_ amount : Int) :
    SortedStarts (set segs from_ to_ amount) ∧
    LastZero (set segs from_ to_ amount) ∧
    (∀ q, valAt (set segs from_ to_ amount) q
      = if from_ ≤ q ∧ q < to_ then amount else valAt segs q) := by
  by_cases h : from_ ≥ to_
  · rw [set_nop h]
    exact ⟨hs, hl, fun q => by rw [if_neg (by omega)]⟩
  · rw [set_eq segs h]
    have hs1 : SortedStarts (_ensure_point segs from_) := ensure_point_sorted hs from_
    have hs2 : SortedStarts (_ensure_point (_ensure_point segs from_) to_) :=
      ensure_point_sorted hs1 to_
    have hl1 : LastZero (_ensure_point segs from_) := ensure_point_lastZero from_ hl
    have hl2 : LastZero (_ensure_point (_ensure_point segs from_) to_) :=
      ensure_point_lastZero to_ hl1
    have hfmem : from_ ∈ starts (_ensure_point (_ensure_point segs from_) to_) :=
      ensure_point_starts_subset to_ from_ (ensure_point_mem from_)
    have htmem : to_ ∈ starts (_ensure_point (_ensure_point segs from_) to_) :=
      ensure_point_mem to_
    have hft : from_ < to_ := by omega
    have hs3 := setLoop_sorted hs2 to_ amount
      (_find_index (_ensure_point (_ensure_point segs from_) to_) from_)
    have hl3 := setLoop_lastZero hs2 htmem amount
      (_find_index (_ensure_point (_ensure_point segs from_) to_) from_) hl2
    have hfm3 := setLoop_mem_starts hfmem to_ amount
      (_find_index (_ensure_point (_ensure_point segs from_) to_) from_)
    have htm3 := setLoop_mem_starts htmem to_ amount
      (_find_index (_ensure_point (_ensure_point segs from_) to_) from_)
    obtain ⟨hcv, hcsub, hclz⟩ := cleanup_local_main hs3 hfm3 htm3 hft
    refine ⟨List.Pairwise.sublist hcsub hs3, hclz hl3, fun q => ?_⟩
    rw [hcv q, setLoop_valAt hs2 hfmem htmem hft amount q,
      ensure_point_valAt hs1 to_ q, ensure_point_valAt hs from_ q]

/-- One public operation: invariants are preserved and the implied value
follows the reference step semantics. -/
lemma applyOp_main {segs : List Seg} (hs : SortedStarts segs)
    (hl : LastZero segs) (op : Op) :
    SortedStarts (applyOp segs op) ∧ LastZero (applyOp segs op) ∧
    (∀ q, valAt (applyOp segs op) q = specStep (valAt segs q) q op) := by
  cases op with
  | add f t a =>
    obtain ⟨h1, h2, h3⟩ := add_main hs hl f t a
    exact ⟨h1, h2, fun q => h3 q⟩
  | set f t a =>
    obtain ⟨h1, h2, h3⟩ := set_main hs hl f t a
    exact ⟨h1, h2, fun q => h3 q⟩

lemma runOps_inv : ∀ (ops : List Op) (s : List Seg), SortedStarts s → LastZero s →
    SortedStarts (ops.foldl applyOp s) ∧ LastZero (ops.foldl applyOp s) := by
  intro ops
  induction ops with
  | nil => exact fun s h1 h2 => ⟨h1, h2⟩
  | cons op rest ih =>
    intro s h1 h2
    rw [List.foldl_cons]
    obtain ⟨g1, g2, -⟩ := applyOp_main h1 h2 op
    exact ih _ g1 g2

lemma reachable_sorted {segs : List Seg} (h : Reachable segs) :
    SortedStarts segs := by
  obtain ⟨ops, rfl⟩ := h
  exact (runOps_inv ops [] List.Pairwise.nil rfl).1

lemma reachable_lastZero {segs : List Seg} (h : Reachable segs) :
    LastZero segs := by
  obtain ⟨ops, rfl⟩ := h
  exact (runOps_inv ops [] List.Pairwise.nil rfl).2

lemma foldl_valAt : ∀ (ops : List Op) (s : List Seg), SortedStarts s →
    LastZero s → ∀ q, valAt (ops.foldl applyOp s) q
      = ops.foldl (fun v op => specStep v q op) (valAt s q) := by
  intro ops
  induction ops with
  | nil => intro s _ _ q; rfl
  | cons op rest ih =>
    intro s h1 h2 q
    rw [List.foldl_cons, List.foldl_cons]
    obtain ⟨g1, g2, g3⟩ := applyOp_main h1 h2 op
    rw [ih _ g1 g2 q, g3 q]

/-! ### The bounds-checked clones agree with the plain embedding -/

lemma findIndexGoC_eq_def (segs : List Seg) (p : Int) (lo hi : Nat) :
    findIndexGoC segs p lo hi =
      if lo < hi then
        match segs[(lo + hi) / 2]? with
        | none => none
        | some e =>
          if e.1 < p then findIndexGoC segs p ((lo + hi) / 2 + 1) hi
          else findIndexGoC segs p lo ((lo + hi) / 2)
      else some lo := by
  rw [findIndexGoC]
  split <;> rfl

lemma findIndexGoC_eq (segs : List Seg) (p : Int) :
    ∀ n lo hi, hi - lo = n → hi ≤ segs.length →
      findIndexGoC segs p lo hi = some (findIndexGo segs p lo hi) := by
  intro n
  induction n using Nat.strong_induction_on with
  | _ n ih =>
    intro lo hi hn hle
    rw [findIndexGoC_eq_def, findIndexGo_eq]
    by_cases h : lo < hi
    · rw [if_pos h, if_pos h]
      have hmid : (lo + hi) / 2 < segs.length := by omega
      rw [List.getElem?_eq_getElem hmid]
      simp only []
      rw [List.getD_eq_getElem _ _ hmid]
      by_cases hc : segs[(lo + hi) / 2].1 < p
      · rw [if_pos hc, if_pos hc]
        exact ih (hi - ((lo + hi) / 2 + 1)) (by omega) _ _ rfl hle
      · rw [if_neg hc, if_neg hc]
        exact ih ((lo + hi) / 2 - lo) (by omega) _ _ rfl (by omega)
    · rw [if_neg h, if_neg h]

lemma _ensure_pointC_eq (segs : List Seg) (p : Int) :
    _ensure_pointC segs p = some (_ensure_point segs p) := by
  have h1 : findIndexGoC segs p 0 segs.length = some (_find_index segs p) :=
    findIndexGoC_eq segs p _ 0 segs.length rfl le_rfl
  rw [_ensure_pointC, h1]
  simp only []
  rw [ensure_point_eq segs p]
  split
  · rfl
  · by_cases h0 : _find_index segs p = 0
    · rw [if_pos h0, if_pos h0]
    · rw [if_neg h0, if_neg h0]
      have hfle := find_index_le segs p
      have hlt : _find_index segs p - 1 < segs.length := by omega
      rw [List.getElem?_eq_getElem hlt]
      simp only []
      rw [List.getD_eq_getElem _ _ hlt]

lemma addLoopC_eq : ∀ (segs : List Seg) (to_ amount : Int) (idx : Nat),
    addLoopC segs to_ amount idx = some (addLoop segs to_ amount idx) := by
  intro segs to_ amount idx
  induction segs, to_, amount, idx using addLoopC.induct with
  | case1 segs to_ amount idx h ih =>
    rw [addLoopC, dif_pos h, ih]
    conv_rhs => rw [addLoop, dif_pos h]
  | case2 segs to_ amount idx h =>
    rw [addLoopC, dif_neg h]
    conv_rhs => rw [addLoop, dif_neg h]

lemma setLoopC_eq : ∀ (segs : List Seg) (to_ amount : Int) (idx : Nat),
    setLoopC segs to_ amount idx = some (setLoop segs to_ amount idx) := by
  intro segs to_ amount idx
  induction segs, to_, amount, idx using setLoopC.induct with
  | case1 segs to_ amount idx h ih =>
    rw [setLoopC, dif_pos h, ih]
    conv_rhs => rw [setLoop, dif_pos h]
  | case2 segs to_ amount idx h =>
    rw [setLoopC, dif_neg h]
    conv_rhs => rw [setLoop, dif_neg h]

lemma cleanupMergeLoopC_eq : ∀ (segs : List Seg) (endIdx : Nat)
    (cleaned : List Seg) (i : Nat), endIdx ≤ segs.length →
    cleanupMergeLoopC segs endIdx cleaned i
      = some (cleanupMergeLoop segs endIdx cleaned i) := by
  intro segs endIdx cleaned i
  induction cleaned, i using cleanupMergeLoopC.induct segs endIdx with
  | case1 cleaned i h hm =>
    intro hle
    rw [List.getElem?_eq_none_iff] at hm
    omega
  | case2 cleaned i h e hm hcond ih =>
    intro hle
    have he : e = segs.getD i d0 := by
      rw [List.getD_eq_getElem _ _ (by omega), ← Option.some_inj, ← hm,
        List.getElem?_eq_getElem (by omega)]
    rw [cleanupMergeLoopC, dif_pos h, hm]
    simp only []
    rw [if_pos hcond, ih hle]
    conv_rhs => rw [cleanupMergeLoop, dif_pos h,
      if_pos (by rw [← he]; exact hcond)]
  | case3 cleaned i h e hm hcond ih =>
    intro hle
    have he : e = segs.getD i d0 := by
      rw [List.getD_eq_getElem _ _ (by omega), ← Option.some_inj, ← hm,
        List.getElem?_eq_getElem (by omega)]
    rw [cleanupMergeLoopC, dif_pos h, hm]
    simp only []
    rw [if_neg hcond, ih hle, he]
    conv_rhs => rw [cleanupMergeLoop, dif_pos h,
      if_neg (by rw [← he]; exact hcond)]
  | case4 cleaned i h =>
    intro hle
    rw [cleanupMergeLoopC, dif_neg h]
    conv_rhs => rw [cleanupMergeLoop, dif_neg h]

lemma _cleanup_localC_eq (segs : List Seg) (from_ to_ : Int) :
    _cleanup_localC segs from_ to_ = some (_cleanup_local segs from_ to_) := by
  by_cases hne : segs = []
  · subst hne
    rw [_cleanup_localC, _cleanup_local, if_pos rfl, if_pos rfl]
  · rw [_cleanup_localC, if_neg hne,
      show findIndexGoC segs from_ 0 segs.length = some (_find_index segs from_)
        from findIndexGoC_eq segs from_ _ 0 segs.length rfl le_rfl]
    simp only []
    rw [show findIndexGoC segs to_ 0 segs.length = some (_find_index segs to_)
        from findIndexGoC_eq segs to_ _ 0 segs.length rfl le_rfl]
    simp only []
    rw [cleanupMergeLoopC_eq segs _ _ _ (min_le_right _ _)]
    simp only []
    rw [cleanup_local_eq segs from_ to_ hne]

lemma addC_eq (segs : List Seg) (from_ to_ amount : Int) :
    addC segs from_ to_ amount = some (add segs from_ to_ amount) := by
  by_cases h : from_ ≥ to_
  · rw [addC, if_pos h, add_nop h]
  · rw [addC, if_neg h, _ensure_pointC_eq]
    simp only []
    rw [_ensure_pointC_eq]
    simp only []
    rw [show findIndexGoC (_ensure_point (_ensure_point segs from_) to_) from_ 0
          (_ensure_point (_ensure_point segs from_) to_).length
        = some (_find_index (_ensure_point (_ensure_point segs from_) to_) from_)
        from findIndexGoC_eq _ from_ _ 0 _ rfl le_rfl]
    simp only []
    rw [addLoopC_eq]
    simp only []
    rw [_cleanup_localC_eq, add_eq segs h]

lemma setC_eq (segs : List Seg) (from_ to_ amount : Int) :
    setC segs from_ to_ amount = some (set segs from_ to_ amount) := by
  by_cases h : from_ ≥ to_
  · rw [setC, if_pos h, set_nop h]
  · rw [setC, if_neg h, _ensure_pointC_eq]
    simp only []
    rw [_ensure_pointC_eq]
    simp only []
    rw [show findIndexGoC (_ensure_point (_ensure_point segs from_) to_) from_ 0
          (_ensure_point (_ensure_point segs from_) to_).length
        = some (_find_index (_ensure_point (_ensure_point segs from_) to_) from_)
        from findIndexGoC_eq _ from_ _ 0 _ rfl le_rfl]
    simp only []
    rw [setLoopC_eq]
    simp only []
    rw [_cleanup_localC_eq, set_eq segs h]

/-! ### The claims -/

/-- C1.  The claim "after every public operation no two consecutive stored
breakpoints have equal intensity" fails on the code: from a fresh store,
`add(10, 30, 1); add(20, 30, 1); set(10, 20, 2)` leaves the store
`[[10, 2], [20, 2], [30, 0]]`, whose first two breakpoints share intensity
`2`.  The local compaction pass never compares the last surviving window
entry with the (kept) entry at `to`, so the pair `(10, 2), (20, 2)` is not
merged. -/
theorem claim_C1_consecutive_equal_intensity_bug :
    runOps [Op.add 10 30 1, Op.add 20 30 1, Op.set 10 20 2]
      = [((10 : Int), (2 : Int)), (20, 2), (30, 0)] ∧
    ¬ NoAdjacentEqualIntensity
      (runOps [Op.add 10 30 1, Op.add 20 30 1, Op.set 10 20 2]) := by
  have h : runOps [Op.add 10 30 1, Op.add 20 30 1, Op.set 10 20 2]
      = [((10 : Int), (2 : Int)), (20, 2), (30, 0)] := by
    simp [runOps, applyOp, IntensitySegments.add, IntensitySegments.set,
      _ensure_point, _find_index, findIndexGo, addLoop, setLoop,
      _cleanup_local, cleanupMergeLoop, stripLeading, stripTrailing,
      List.getD, d0]
  refine ⟨h, ?_⟩
  rw [h]
  simp [NoAdjacentEqualIntensity, List.chain'_cons]

/-- C2.  The claim "`add(a, b, amount)` followed by `add(a, b, -amount)`
restores the prior canonical dump exactly" fails on the code: from a fresh
store (dump `"[]"`), `add(10, 20, 1); add(10, 20, -1)` leaves the dump
`"[[20, 0]]"`.  The leading-zero strip refuses to empty the store (its
guard is `len(cleaned) > 1`), so a lone `[20, 0]` survives. -/
theorem claim_C2_round_trip_bug :
    __str__ (runOps []) = "[]" ∧
    __str__ (runOps [Op.add 10 20 1, Op.add 10 20 (-1)]) = "[[20, 0]]" ∧
    ("[[20, 0]]" : String) ≠ "[]" := by
  have h : runOps [Op.add 10 20 1, Op.add 10 20 (-1)] = [((20 : Int), (0 : Int))] := by
    simp [runOps, applyOp, IntensitySegments.add, _ensure_point, _find_index,
      findIndexGo, addLoop, _cleanup_local, cleanupMergeLoop, stripLeading,
      stripTrailing, List.getD, d0]
  refine ⟨rfl, ?_, by decide⟩
  rw [h]
  rfl

/-- C3.  The claim "a non-empty store never begins with a zero-intensity
breakpoint" fails on the code: from a fresh store,
`add(10, 30, 1); add(10, 30, -1)` leaves the single breakpoint `[30, 0]`.
The leading-zero strip stops as soon as one entry remains
(`while len(cleaned) > 1 ...`), keeping a zero-valued first entry. -/
theorem claim_C3_leading_zero_bug :
    runOps [Op.add 10 30 1, Op.add 10 30 (-1)] = [((30 : Int), (0 : Int))] ∧
    runOps [Op.add 10 30 1, Op.add 10 30 (-1)] ≠ [] ∧
    ((runOps [Op.add 10 30 1, Op.add 10 30 (-1)]).headD d0).2 = 0 := by
  have h : runOps [Op.add 10 30 1, Op.add 10 30 (-1)] = [((30 : Int), (0 : Int))] := by
    simp [runOps, applyOp, IntensitySegments.add, _ensure_point, _find_index,
      findIndexGo, addLoop, _cleanup_local, cleanupMergeLoop, stripLeading,
      stripTrailing, List.getD, d0]
  exact ⟨h, by rw [h]; decide, by rw [h]; rfl⟩

/-- C4.  For every call sequence on a fresh store and every point `p`, the
value implied by the final store at `p` (intensity of the last breakpoint
with start `≤ p`, else `0`) equals the reference semantics: the sum of the
`add` amounts whose range contains `p`, overridden by the most recent
containing `set` and adjusted by the `add`s issued after it. -/
theorem claim_C4_additive_correctness (ops : List Op) (p : Int) :
    valAt (runOps ops) p = specVal ops p := by
  rw [runOps, specVal, foldl_valAt ops [] List.Pairwise.nil rfl p]
  rfl

/-- C5.  After any call sequence (that is, in every reachable store state),
the stored breakpoints are strictly ascending by start, so the starts carry
no duplicates. -/
theorem claim_C5_sorted_unique (segs : List Seg) (h : Reachable segs) :
    SortedStarts segs ∧ (starts segs).Nodup := by
  have hs := reachable_sorted h
  exact ⟨hs, (List.pairwise_map).mpr (hs.imp fun hab => ne_of_lt hab)⟩

/-- Witness for C5 at the store reached by `add(10, 30, 1)`. -/
theorem claim_C5_sorted_unique_witness :
    SortedStarts (runOps [Op.add 10 30 1]) ∧
      (starts (runOps [Op.add 10 30 1])).Nodup :=
  claim_C5_sorted_unique _ ⟨[Op.add 10 30 1], rfl⟩

/-- C6.  A call `add(from_, to_, amount)` or `set(from_, to_, amount)` on a
reachable store leaves the implied value unchanged at every point outside
`[from_, to_)`. -/
theorem claim_C6_frame (segs : List Seg) (h : Reachable segs)
    (from_ to_ amount x : Int) (hx : x < from_ ∨ to_ ≤ x) :
    valAt (add segs from_ to_ amount) x = valAt segs x ∧
    valAt (set segs from_ to_ amount) x = valAt segs x := by
  have hs := reachable_sorted h
  have hl := reachable_lastZero h
  obtain ⟨-, -, h3⟩ := add_main hs hl from_ to_ amount
  obtain ⟨-, -, g3⟩ := set_main hs hl from_ to_ amount
  exact ⟨by rw [h3 x, if_neg (by omega)], by rw [g3 x, if_neg (by omega)]⟩

/-- Witness for C6: `add(50, 60, 7)` and `set(50, 60, 7)` on the store
reached by `add(10, 30, 1)` do not change the value at `20`. -/
theorem claim_C6_frame_witness :
    valAt (add (runOps [Op.add 10 30 1]) 50 60 7) 20
        = valAt (runOps [Op.add 10 30 1]) 20 ∧
    valAt (set (runOps [Op.add 10 30 1]) 50 60 7) 20
        = valAt (runOps [Op.add 10 30 1]) 20 :=
  claim_C6_frame _ ⟨[Op.add 10 30 1], rfl⟩ 50 60 7 20 (Or.inl (by decide))

/-- C7.  When `from_ ≥ to_` — in particular for `add(x, x, k)` and
`set(x, x, k)` — both operations return the store unchanged (and, being
total functions, report no error). -/
theorem claim_C7_noop (segs : List Seg) (from_ to_ amount : Int)
    (h : from_ ≥ to_) :
    add segs from_ to_ amount = segs ∧ set segs from_ to_ amount = segs :=
  ⟨add_nop h amount, set_nop h amount⟩

/-- Witness for C7 at the degenerate range `[5, 5)` on the empty store. -/
theorem claim_C7_noop_witness :
    add ([] : List Seg) 5 5 7 = [] ∧ set ([] : List Seg) 5 5 7 = [] :=
  claim_C7_noop [] 5 5 7 (by decide)

/-- C8.  On every reachable store the canonical dump is the spec's format —
`"[[start1, intensity1], [start2, intensity2], ...]"` over the stored
breakpoints, which are ascending by start — and the empty store dumps
exactly `"[]"`. -/
theorem claim_C8_canonical_dump (segs : List Seg) (h : Reachable segs) :
    __str__ segs = specRender segs ∧ SortedStarts segs ∧
      __str__ ([] : List Seg) = "[]" := by
  refine ⟨?_, reachable_sorted h, rfl⟩
  cases segs with
  | nil => rfl
  | cons e rest => rfl

/-- Witness for C8 at the store reached by `add(10, 30, 1)`. -/
theorem claim_C8_canonical_dump_witness :
    __str__ (runOps [Op.add 10 30 1]) = specRender (runOps [Op.add 10 30 1]) ∧
    SortedStarts (runOps [Op.add 10 30 1]) ∧
    __str__ ([] : List Seg) = "[]" :=
  claim_C8_canonical_dump _ ⟨[Op.add 10 30 1], rfl⟩

/-- C9.  Every non-empty reachable store ends with a breakpoint of
intensity exactly `0`. -/
theorem claim_C9_terminal_zero (segs : List Seg) (h : Reachable segs)
    (hne : segs ≠ []) : (segs.getLast hne).2 = 0 := by
  have hl := reachable_lastZero h
  unfold LastZero at hl
  rw [getLastD_eq_getLast d0 hne] at hl
  exact hl

/-- Witness for C9 at the store reached by `add(0, 1, 1)`, which is
`[[0, 1], [1, 0]]`. -/
theorem claim_C9_terminal_zero_witness :
    ((runOps [Op.add 0 1 1]).getLast (by
      simp [runOps, applyOp, IntensitySegments.add, _ensure_point, _find_index,
        findIndexGo, addLoop, _cleanup_local, cleanupMergeLoop, stripLeading,
        stripTrailing, List.getD, d0])).2 = 0 :=
  claim_C9_terminal_zero _ ⟨[Op.add 0 1 1], rfl⟩ _

/-- C10.  On every store state and all integer arguments, `add` and `set`
terminate and never index out of range: the bounds-checked clones, which
replay every unguarded Python list read through `xs[i]?`, return `some` of
the plain result.  (`__str__` performs no indexing; totality of all loops
is witnessed by the functions being definable by well-founded recursion.) -/
theorem claim_C10_totality (segs : List Seg) (from_ to_ amount : Int) :
    addC segs from_ to_ amount = some (add segs from_ to_ amount) ∧
    setC segs from_ to_ amount = some (set segs from_ to_ amount) :=
  ⟨addC_eq segs from_ to_ amount, setC_eq segs from_ to_ amount⟩

end IntensitySegments
